import Mathlib

/-!
Verification of the 2Q LRU cache engine and its cache coordinator.

The definitions below are a shallow embedding of the Go sources:
the 2Q replacement engine (struct TwoQ and twoQList, with operations
Get, PutAndEvict, PutOnStartup, prune, pruneCold and the twoQList
method evict), the hit and miss statistics transitions of the cache
coordinator (LRU.hit and LRU.hitToMiss), the origin fetch
normalisation (LRU.getResFromStore), and an interleaving model of the
single flight registry implemented by LRU.getFromStore.

Go byte string keys are modelled as Lean String (the source indexes
its map by string(key)); int64 sizes and counters are modelled as Int
(no arithmetic here approaches the int64 range); the container/list
doubly linked lists are modelled as Lean lists whose head is the list
front and whose last element is the list back.  The master items map
of the TwoQ struct always holds exactly the items linked into the
three queues (every map insert and delete in the source is paired
with a list link or unlink), so the map is represented by the three
queue lists themselves, and the status byte of an item is represented
by which queue list holds the item.
-/

/-- Residency status of an item: the constants twoQHot, twoQWarm and
twoQCold of the source. -/
inductive Status where
  | hot
  | warm
  | cold
deriving DecidableEq, Repr

/-- State of the TwoQ struct.  Each of the three twoQList values is
flattened into the state: its linked list (a Lean list of key and
size pairs, front first), its running size field and its cap and
pruneCap fields.  The cap and pruneCap fields of the TwoQ struct
itself are the fields cap and pruneCap below.  The capacity fields
are the integers computed by NewTwoQ; they are kept abstract here
because NewTwoQ derives them with float64 arithmetic. -/
structure TwoQ where
  hotL : List (String × Int)
  warmL : List (String × Int)
  coldL : List (String × Int)
  hotSize : Int
  warmSize : Int
  coldSize : Int
  cap : Int
  pruneCap : Int
  hotCap : Int
  hotPruneCap : Int
  warmCap : Int
  warmPruneCap : Int
  coldCap : Int
  coldPruneCap : Int
deriving DecidableEq, Repr

/-- Remove the first pair with the given key from a list: the effect
of list.Remove on the unique element of an item.  (In the source each
key occurs in at most one queue node, so first occurrence removal is
exact.) -/
def removeKey : List (String × Int) → String → List (String × Int)
  | [], _ => []
  | p :: t, k => if p.1 = k then t else p :: removeKey t k

/-- Sum of the size components of the items on a queue list. -/
def sumSizes (l : List (String × Int)) : Int :=
  (l.map Prod.snd).sum

/-- Keys of a queue list. -/
def keysOf (l : List (String × Int)) : List String :=
  l.map Prod.fst

/-- The lookup tq.items[string(key)] of the source, returning the
status byte and size of the item when present.  Because the items map
always holds exactly the items linked into the three queues, lookup
is by scanning the three queue lists. -/
def lookupStatus (s : TwoQ) (k : String) : Option (Status × Int) :=
  match s.hotL.lookup k with
  | some sz => some (Status.hot, sz)
  | none =>
    match s.warmL.lookup k with
    | some sz => some (Status.warm, sz)
    | none =>
      match s.coldL.lookup k with
      | some sz => some (Status.cold, sz)
      | none => none

/-- TwoQ.Get of the source.  Returns the reported size (minus one
when the key is absent or cold) and the successor state.  The hot
case is list.MoveToFront; the warm case is removeElem on the warm
list followed by pushToFront on the hot list. -/
def TwoQ.Get (s : TwoQ) (k : String) : Int × TwoQ :=
  match lookupStatus s k with
  | some (Status.hot, sz) =>
    (sz, { s with hotL := (k, sz) :: removeKey s.hotL k })
  | some (Status.warm, sz) =>
    (sz, { s with warmL := removeKey s.warmL k,
                  warmSize := s.warmSize - sz,
                  hotL := (k, sz) :: s.hotL,
                  hotSize := s.hotSize + sz })
  | _ => (-1, s)

/-- One iteration chunk of the twoQList evict loop on the warm list,
written with explicit fuel; TwoQ.prune runs it with fuel equal to the
warm list length, which the loop can never exhaust early because each
iteration removes exactly one element.  The loop guard, the back withdrawal
(removeElem) and the pushToFront onto the cold list follow the source
method twoQList.evict. -/
def evictWarmLoop : Nat → TwoQ → TwoQ × List String × Int
  | 0, s => (s, [], 0)
  | Nat.succ fuel, s =>
    if s.hotSize + s.warmSize > s.pruneCap ∧ s.warmSize > s.warmPruneCap then
      match s.warmL.getLast? with
      | none => (s, [], 0)
      | some (k, sz) =>
        let s1 : TwoQ :=
          { s with warmL := s.warmL.dropLast,
                   warmSize := s.warmSize - sz,
                   coldL := (k, sz) :: s.coldL,
                   coldSize := s.coldSize + sz }
        let r := evictWarmLoop fuel s1
        (r.1, k :: r.2.1, sz + r.2.2)
    else (s, [], 0)

/-- The twoQList evict loop on the hot list; same shape as
evictWarmLoop with the roles of the hot fields. -/
def evictHotLoop : Nat → TwoQ → TwoQ × List String × Int
  | 0, s => (s, [], 0)
  | Nat.succ fuel, s =>
    if s.hotSize + s.warmSize > s.pruneCap ∧ s.hotSize > s.hotPruneCap then
      match s.hotL.getLast? with
      | none => (s, [], 0)
      | some (k, sz) =>
        let s1 : TwoQ :=
          { s with hotL := s.hotL.dropLast,
                   hotSize := s.hotSize - sz,
                   coldL := (k, sz) :: s.coldL,
                   coldSize := s.coldSize + sz }
        let r := evictHotLoop fuel s1
        (r.1, k :: r.2.1, sz + r.2.2)
    else (s, [], 0)

/-- tq.lruWarm.evict() of the source. -/
def evictWarm (s : TwoQ) : TwoQ × List String × Int :=
  evictWarmLoop s.warmL.length s

/-- tq.lruHot.evict() of the source. -/
def evictHot (s : TwoQ) : TwoQ × List String × Int :=
  evictHotLoop s.hotL.length s

/-- The TwoQ.pruneCold loop with explicit fuel; again the fuel equals
the cold list length and cannot run out before the back withdrawal
finds an empty list.  Each removed entry is also deleted from the
items map in the source, which here is exactly its disappearance from
the cold queue list. -/
def pruneColdLoop : Nat → TwoQ → TwoQ
  | 0, s => s
  | Nat.succ fuel, s =>
    if s.coldSize > s.coldCap then
      match s.coldL.getLast? with
      | none => s
      | some (_, sz) =>
        pruneColdLoop fuel
          { s with coldL := s.coldL.dropLast, coldSize := s.coldSize - sz }
    else s

/-- TwoQ.pruneCold of the source. -/
def TwoQ.pruneCold (s : TwoQ) : TwoQ :=
  pruneColdLoop s.coldL.length s

/-- TwoQ.prune of the source: nothing happens at or under the total
capacity; otherwise the warm list is evicted, then the hot list, then
the cold list is trimmed, and the evicted keys and bytes are the warm
results followed by the hot results. -/
def TwoQ.prune (s : TwoQ) : TwoQ × List String × Int :=
  if s.hotSize + s.warmSize ≤ s.cap then (s, [], 0)
  else
    let w := evictWarm s
    let h := evictHot w.1
    (TwoQ.pruneCold h.1, w.2.1 ++ h.2.1, w.2.2 + h.2.2)

/-- TwoQ.PutAndEvict of the source.  Note that the source assigns
i.size = size before the warm and cold cases call removeElem, so the
removal subtracts the new size from the size field of the queue the
item is leaving, not the size that was added when the item entered
that queue; the embedding reproduces this order. -/
def TwoQ.PutAndEvict (s : TwoQ) (k : String) (sz : Int) : TwoQ × List String × Int :=
  match lookupStatus s k with
  | some (Status.hot, _) =>
    ({ s with hotL := (k, sz) :: removeKey s.hotL k }, [], 0)
  | some (Status.warm, _) =>
    ({ s with warmL := removeKey s.warmL k,
              warmSize := s.warmSize - sz,
              hotL := (k, sz) :: s.hotL,
              hotSize := s.hotSize + sz }, [], 0)
  | some (Status.cold, _) =>
    TwoQ.prune
      { s with coldL := removeKey s.coldL k,
               coldSize := s.coldSize - sz,
               hotL := (k, sz) :: s.hotL,
               hotSize := s.hotSize + sz }
  | none =>
    TwoQ.prune
      { s with warmL := (k, sz) :: s.warmL,
               warmSize := s.warmSize + sz }

/-- TwoQ.PutOnStartup of the source. -/
def TwoQ.PutOnStartup (s : TwoQ) (k : String) (sz : Int) : TwoQ × Bool :=
  if s.hotSize + s.warmSize + sz ≤ s.cap then
    ({ s with warmL := (k, sz) :: s.warmL, warmSize := s.warmSize + sz }, true)
  else if s.coldSize + sz ≤ s.coldCap then
    ({ s with coldL := (k, sz) :: s.coldL, coldSize := s.coldSize + sz }, false)
  else (s, false)

/-- A fresh TwoQ state with the given capacity fields and empty
queues, as built by NewTwoQ after it has derived the integer
capacities. -/
def mkTwoQ (cap pruneCap hotCap hotPC warmCap warmPC coldCap coldPC : Int) : TwoQ :=
  { hotL := [], warmL := [], coldL := []
    hotSize := 0, warmSize := 0, coldSize := 0
    cap := cap, pruneCap := pruneCap
    hotCap := hotCap, hotPruneCap := hotPC
    warmCap := warmCap, warmPruneCap := warmPC
    coldCap := coldCap, coldPruneCap := coldPC }

/-- The state returned by NewTwoQ(1000, 0.0, 0.25, 0.5), the
configuration the repository test suite uses.  With eviction ratio
zero every float64 product in NewTwoQ is exact: pruneCap = 1000,
coldCap = 500, warmCap = 250, hotCap = 750, and each list pruneCap
equals its cap. -/
def tq1000 : TwoQ :=
  mkTwoQ 1000 1000 750 750 250 250 500 500

/-- Fold a list of PutAndEvict calls over a state, keeping the state. -/
def runPuts (s : TwoQ) (ops : List (String × Int)) : TwoQ :=
  ops.foldl (fun t p => (TwoQ.PutAndEvict t p.1 p.2).1) s

/-- A PutAndEvict trace on the NewTwoQ(1000, 0.0, 0.25, 0.5)
configuration: each key is first inserted with size 100 and then
re-put with size 1.  Every re-put subtracts the new size 1 from the
warm size field although the item contributed 100 when it entered the
warm queue, leaving 99 stale bytes in the field per key. -/
def c1Trace : List (String × Int) :=
  [("a0", 100), ("a0", 1), ("a1", 100), ("a1", 1),
   ("a2", 100), ("a2", 1), ("a3", 100), ("a3", 1),
   ("a4", 100), ("a4", 1), ("a5", 100), ("a5", 1),
   ("a6", 100), ("a6", 1), ("a7", 100), ("a7", 1),
   ("a8", 100), ("a8", 1), ("a9", 100), ("a9", 1),
   ("b", 100), ("b", 1)]

/-- Helper states used by witnesses: a state holding one cold item. -/
def cwState : TwoQ :=
  { tq1000 with coldL := [("c", 5)], coldSize := 5 }

/-- Helper state holding one hot item. -/
def hwState : TwoQ :=
  { tq1000 with hotL := [("h", 7)], hotSize := 7 }

/-- Helper state holding one warm item. -/
def wwState : TwoQ :=
  { tq1000 with warmL := [("w", 9)], warmSize := 9 }

/-- Helper state whose warm size field already stands at 800 bytes,
used to reach the cold branch of PutOnStartup. -/
def bigWarmState : TwoQ :=
  { tq1000 with warmSize := 800 }

/-- The statistics counters of the LRU struct touched by the Get
path: hits, misses and bget (bytes retrieved). -/
structure Stats where
  hits : Int
  misses : Int
  bget : Int
deriving DecidableEq, Repr

/-- The zero statistics of a fresh LRU. -/
def stats0 : Stats :=
  { hits := 0, misses := 0, bget := 0 }

/-- The statistics transition of one LRU.Get call that passed the
empty key check.  lruRes is the size reported by the index (negative
means miss, as in LRU.hit); boltHas reports whether the byte store
read of the hit path found a value.  A nonnegative index answer runs
LRU.hit (hits and bget rise); when the byte store has nothing the
call then runs LRU.hitToMiss (hits and bget are reverted and misses
rises).  A negative index answer runs the miss branch of LRU.hit. -/
def stepGet (st : Stats) (lruRes : Int) (boltHas : Bool) : Stats :=
  if 0 ≤ lruRes then
    let st1 : Stats := { st with hits := st.hits + 1, bget := st.bget + lruRes }
    if boltHas then st1
    else { st1 with hits := st1.hits - 1, bget := st1.bget - lruRes,
                    misses := st1.misses + 1 }
  else { st with misses := st.misses + 1 }

/-- Fold a sequence of Get outcomes over the statistics. -/
def runGets (st : Stats) (evs : List (Int × Bool)) : Stats :=
  evs.foldl (fun a p => stepGet a p.1 p.2) st

/-- Errors of the fetch path of the cache coordinator. -/
inductive LruErr where
  | noValue
  | storeErr (msg : String)
  | panicked (msg : String)
deriving DecidableEq, Repr

/-- What the origin store callback does on one call: either it
returns a Go byte slice (none models a nil slice, some a non-nil
slice, possibly of length zero) together with an optional error, or
it panics.  This is the input that LRU.getResFromStore consumes. -/
inductive OriginOutcome where
  | ret (v : Option (List Nat)) (e : Option LruErr)
  | panic (msg : String)
deriving DecidableEq, Repr

/-- LRU.getResFromStore of the source: a panic is recovered into a
nil value and an error; otherwise, when an error is present the value
is set to nil, and when both the error and the value are nil the
error becomes ErrNoValue.  A non-nil value passes through untouched,
whatever its length. -/
def getResFromStore (o : OriginOutcome) : Option (List Nat) × Option LruErr :=
  match o with
  | OriginOutcome.panic msg => (none, some (LruErr.panicked msg))
  | OriginOutcome.ret v e =>
    match e with
    | some err => (none, some err)
    | none =>
      match v with
      | none => (none, some LruErr.noValue)
      | some xs => (some xs, none)

/-- Whether a Go slice modelled as Option (List Nat) is non-empty:
a non-nil slice of positive length. -/
def valueNonEmpty (v : Option (List Nat)) : Bool :=
  match v with
  | none => false
  | some xs => !xs.isEmpty

/-- A state over capacity used by witnesses: two warm items of 600
bytes each against the 1000 byte capacity. -/
def overState : TwoQ :=
  { tq1000 with warmL := [("a", 600), ("b", 600)], warmSize := 1200 }

/-- Well-formed TwoQ state: the three size fields agree with the
items on their lists, all item sizes are nonnegative, keys are not
duplicated across the three queues, and the capacity fields satisfy
the bounds NewTwoQ establishes (prune capacities are derived from
their capacities by a factor in [0, 1], the warm capacity is at most
the total capacity, and the total capacity is at least 1000). -/
def WF (s : TwoQ) : Prop :=
  s.hotSize = sumSizes s.hotL ∧
  s.warmSize = sumSizes s.warmL ∧
  s.coldSize = sumSizes s.coldL ∧
  (∀ p ∈ s.hotL, 0 ≤ p.2) ∧
  (∀ p ∈ s.warmL, 0 ≤ p.2) ∧
  (∀ p ∈ s.coldL, 0 ≤ p.2) ∧
  (keysOf s.hotL ++ keysOf s.warmL ++ keysOf s.coldL).Nodup ∧
  0 ≤ s.cap ∧ s.pruneCap ≤ s.cap ∧ s.warmPruneCap ≤ s.cap

instance (s : TwoQ) : Decidable (WF s) := by
  unfold WF
  infer_instance

/-- The global key list of a state, hot then warm then cold. -/
def allKeys (s : TwoQ) : List String :=
  keysOf s.hotL ++ keysOf s.warmL ++ keysOf s.coldL

/-- The state after one back withdrawal of the warm evict loop. -/
def popWarm (t : TwoQ) (k : String) (sz : Int) : TwoQ :=
  { t with warmL := t.warmL.dropLast,
           warmSize := t.warmSize - sz,
           coldL := (k, sz) :: t.coldL,
           coldSize := t.coldSize + sz }

/-- The state after one back withdrawal of the hot evict loop. -/
def popHot (t : TwoQ) (k : String) (sz : Int) : TwoQ :=
  { t with hotL := t.hotL.dropLast,
           hotSize := t.hotSize - sz,
           coldL := (k, sz) :: t.coldL,
           coldSize := t.coldSize + sz }

/-- The state after one back withdrawal of the cold trim loop. -/
def popCold (t : TwoQ) (sz : Int) : TwoQ :=
  { t with coldL := t.coldL.dropLast, coldSize := t.coldSize - sz }

/-- The result a fetch produces: the value and error pair the leader
computes (the normalised getResFromStore output). -/
def Res : Type := Option (List Nat) × Option LruErr

/-- The state of one goroutine running LRU.getFromStore for its key,
modelling the source line by line.  The muReqs critical sections and
the WaitGroup operations of the source are the atomic transitions of
the model.  calling holds between `r.wg.Add(1); l.reqs[key] = r`
and `r.wg.Done()`: exactly while the origin store call of the leader
is in flight.  A follower in waiting sits in `r.wg.Wait()`. -/
inductive TState where
  | start (k : String)
  | calling (k : String) (r : Nat)
  | leaderDone (k : String) (r : Nat) (res : Res)
  | waiting (k : String) (r : Nat)
  | doneLeader (r : Nat) (res : Res)
  | doneFollower (r : Nat) (res : Res)

/-- Global state of the single flight registry: the thread states,
the reqs map (holding the identifier of the pending req per key),
the one-shot completion cell of every req created so far, and a
fresh identifier counter. -/
structure Sys where
  tstate : Nat → TState
  reqs : String → Option Nat
  completed : Nat → Option Res
  next : Nat

/-- Pointwise update of a thread state table. -/
def updT (f : Nat → TState) (t : Nat) (v : TState) : Nat → TState :=
  fun t2 => if t2 = t then v else f t2

/-- Pointwise update of the reqs map. -/
def updR (f : String → Option Nat) (k : String) (v : Option Nat) :
    String → Option Nat :=
  fun k2 => if k2 = k then v else f k2

/-- Pointwise update of the completion cells. -/
def updC (f : Nat → Option Res) (r : Nat) (v : Option Res) :
    Nat → Option Res :=
  fun r2 => if r2 = r then v else f r2

/-- The initial system: every thread is about to call getFromStore
for its key, no request is registered, nothing is completed. -/
def initSys (keyOf : Nat → String) : Sys :=
  { tstate := fun t => TState.start (keyOf t)
    reqs := fun _ => none
    completed := fun _ => none
    next := 0 }

/-- One interleaving step of the model of LRU.getFromStore.
beginLeader and beginFollower are the two outcomes of the muReqs
critical section at the top of getFromStore; finishCall is the
origin store call returning and publishing its result through the
req (sets r.value, r.err and runs r.wg.Done); leaderExit is the
deleteReq call of the leader, on the error path or at the end of the
background goroutine; followerWake is r.wg.Wait returning in a
follower, which then reads r.value and r.err. -/
inductive Step : Sys → Sys → Prop where
  | beginLeader (s : Sys) (t : Nat) (k : String) :
      s.tstate t = TState.start k →
      s.reqs k = none →
      Step s
        { tstate := updT s.tstate t (TState.calling k s.next)
          reqs := updR s.reqs k (some s.next)
          completed := s.completed
          next := s.next + 1 }
  | beginFollower (s : Sys) (t : Nat) (k : String) (r : Nat) :
      s.tstate t = TState.start k →
      s.reqs k = some r →
      Step s { s with tstate := updT s.tstate t (TState.waiting k r) }
  | finishCall (s : Sys) (t : Nat) (k : String) (r : Nat) (res : Res) :
      s.tstate t = TState.calling k r →
      Step s
        { s with tstate := updT s.tstate t (TState.leaderDone k r res)
                 completed := updC s.completed r (some res) }
  | leaderExit (s : Sys) (t : Nat) (k : String) (r : Nat) (res : Res) :
      s.tstate t = TState.leaderDone k r res →
      Step s
        { s with tstate := updT s.tstate t (TState.doneLeader r res)
                 reqs := updR s.reqs k none }
  | followerWake (s : Sys) (t : Nat) (k : String) (r : Nat) (res : Res) :
      s.tstate t = TState.waiting k r →
      s.completed r = some res →
      Step s { s with tstate := updT s.tstate t (TState.doneFollower r res) }

/-- Reachability from the initial system by interleaving steps. -/
def Reachable (keyOf : Nat → String) (s : Sys) : Prop :=
  Relation.ReflTransGen Step (initSys keyOf) s

/-- A thread owns a request identifier while it is the leader that
created it and has not yet left: either still calling or already
done with the origin call but not yet exited. -/
def owns (ts : TState) (r : Nat) : Prop :=
  (∃ k, ts = TState.calling k r) ∨ (∃ k res, ts = TState.leaderDone k r res)

/-- The inductive invariant of the single flight registry. -/
def SFInv (s : Sys) : Prop :=
  (∀ t k r, s.tstate t = TState.calling k r →
    s.reqs k = some r ∧ s.completed r = none ∧ r < s.next) ∧
  (∀ t1 t2 r, owns (s.tstate t1) r → owns (s.tstate t2) r → t1 = t2) ∧
  (∀ t k r res, s.tstate t = TState.leaderDone k r res →
    s.completed r = some res ∧ s.reqs k = some r) ∧
  (∀ t r res, s.tstate t = TState.doneLeader r res →
    s.completed r = some res) ∧
  (∀ t r res, s.tstate t = TState.doneFollower r res →
    s.completed r = some res) ∧
  (∀ r res, s.completed r = some res → r < s.next)

/-- Key assignment of the witness run: every thread wants key k. -/
def kf : Nat → String := fun _ => "k"

/-- The result the leader of the witness run computes. -/
def sfRes : Res := (some [1], none)

/-- Witness run, step 1: thread 0 becomes the leader for key k. -/
def sfA1 : Sys :=
  { tstate := updT (initSys kf).tstate 0 (TState.calling "k" (initSys kf).next)
    reqs := updR (initSys kf).reqs "k" (some (initSys kf).next)
    completed := (initSys kf).completed
    next := (initSys kf).next + 1 }

/-- Witness run, step 2: thread 1 joins as a follower. -/
def sfA2 : Sys :=
  { sfA1 with tstate := updT sfA1.tstate 1 (TState.waiting "k" 0) }

/-- Witness run, step 3: the origin call of the leader returns. -/
def sfA3 : Sys :=
  { sfA2 with tstate := updT sfA2.tstate 0 (TState.leaderDone "k" 0 sfRes)
              completed := updC sfA2.completed 0 (some sfRes) }

/-- Witness run, step 4: the follower wakes with the result. -/
def sfA4 : Sys :=
  { sfA3 with tstate := updT sfA3.tstate 1 (TState.doneFollower 0 sfRes) }

/-- Witness run, step 5: the leader deletes the request entry. -/
def sfA5 : Sys :=
  { sfA4 with tstate := updT sfA4.tstate 0 (TState.doneLeader 0 sfRes)
              reqs := updR sfA4.reqs "k" none }

/-- C1.  The claim states that after any PutAndEvict or Get call
completes, hot.size + warm.size is at most the total capacity.  The
code violates it: on the trace c1Trace the stale warm bytes left by
re-puts with a smaller size keep the warm size field at 990 with an
empty warm list, the final put of key b at size 1 then leaves the
state at rest with hot.size + warm.size = 1001 over the capacity
1000, because the eviction loops see an empty warm list and a hot
size field of only 11. -/
theorem c1_at_rest_overflow :
    (runPuts tq1000 c1Trace).cap = 1000 ∧
    (runPuts tq1000 c1Trace).hotSize + (runPuts tq1000 c1Trace).warmSize = 1001 ∧
    ¬((runPuts tq1000 c1Trace).hotSize + (runPuts tq1000 c1Trace).warmSize ≤
        (runPuts tq1000 c1Trace).cap) := by
  decide

/-- C4.  The claim states that each sub-queue size field equals the
sum of the sizes of its resident items, and that PutAndEvict
preserves this when called with a new size for a resident key.  The
code violates it: PutAndEvict assigns the new size to the item before
removeElem subtracts it, so after putting key k with size 100 and
re-putting it with size 200 the warm list is empty while its size
field is -100. -/
theorem c4_accounting_broken :
    (runPuts tq1000 [("k", 100), ("k", 200)]).warmL = [] ∧
    (runPuts tq1000 [("k", 100), ("k", 200)]).warmSize = -100 ∧
    (runPuts tq1000 [("k", 100), ("k", 200)]).warmSize ≠
      sumSizes (runPuts tq1000 [("k", 100), ("k", 200)]).warmL := by
  decide

/-- C5 counterexample.  PutAndEvict of a fresh key twice with the
same key and size does not equal a single call: one call leaves the
key warm, two calls leave it hot, and the warm and hot size fields
differ accordingly. -/
theorem c5_double_put_counterexample :
    lookupStatus (runPuts tq1000 [("a", 100)]) "a" = some (Status.warm, 100) ∧
    lookupStatus (runPuts tq1000 [("a", 100), ("a", 100)]) "a" =
      some (Status.hot, 100) ∧
    (runPuts tq1000 [("a", 100)]).warmSize = 100 ∧
    (runPuts tq1000 [("a", 100), ("a", 100)]).warmSize = 0 := by
  decide

/-- C5 amended.  For a key already resident in the hot or warm queue,
PutAndEvict twice in a row with the same key and size equals a single
call: the whole result state (hence residency and every counter) and
the returned eviction data coincide. -/
theorem c5_double_put_amended (s : TwoQ) (k : String) (sz old : Int)
    (st : Status) (hst : lookupStatus s k = some (st, old))
    (hhw : st = Status.hot ∨ st = Status.warm) :
    TwoQ.PutAndEvict (TwoQ.PutAndEvict s k sz).1 k sz =
      TwoQ.PutAndEvict s k sz := by
  rcases hhw with h | h
  · subst h
    have hh : s.hotL.lookup k = some old := by
      unfold lookupStatus at hst
      cases hhot : s.hotL.lookup k with
      | some v =>
        rw [hhot] at hst
        simp at hst
        rw [hst]
      | none =>
        rw [hhot] at hst
        cases hwarm : s.warmL.lookup k with
        | some v => rw [hwarm] at hst; simp at hst
        | none =>
          rw [hwarm] at hst
          cases hcold : s.coldL.lookup k with
          | some v => rw [hcold] at hst; simp at hst
          | none => rw [hcold] at hst; simp at hst
    simp [TwoQ.PutAndEvict, lookupStatus, hh, List.lookup, removeKey]
  · subst h
    have hh : s.hotL.lookup k = none ∧ s.warmL.lookup k = some old := by
      unfold lookupStatus at hst
      cases hhot : s.hotL.lookup k with
      | some v => rw [hhot] at hst; simp at hst
      | none =>
        rw [hhot] at hst
        cases hwarm : s.warmL.lookup k with
        | some v =>
          rw [hwarm] at hst
          simp at hst
          exact ⟨rfl, by rw [hst]⟩
        | none =>
          rw [hwarm] at hst
          cases hcold : s.coldL.lookup k with
          | some v => rw [hcold] at hst; simp at hst
          | none => rw [hcold] at hst; simp at hst
    simp [TwoQ.PutAndEvict, lookupStatus, hh.1, hh.2, List.lookup, removeKey]

/-- C5 witness: the amended theorem applied to a concrete state where
the key is warm. -/
theorem c5_double_put_amended_witness :
    TwoQ.PutAndEvict (TwoQ.PutAndEvict wwState "w" 77).1 "w" 77 =
      TwoQ.PutAndEvict wwState "w" 77 :=
  c5_double_put_amended wwState "w" 77 9 Status.warm (by decide)
    (Or.inr rfl)

/-- C2.  TwoQ.Get semantics: an absent key returns -1 and changes no
state; a hot item is moved to the front of the hot list and its size
is returned; a warm item is removed from the warm list and pushed to
the front of the hot list and its size is returned; a cold item is
treated as absent: -1 is returned and no state changes. -/
theorem c2_get_cases (s : TwoQ) (k : String) :
    (lookupStatus s k = none → TwoQ.Get s k = (-1, s)) ∧
    (∀ sz, lookupStatus s k = some (Status.hot, sz) →
      TwoQ.Get s k = (sz, { s with hotL := (k, sz) :: removeKey s.hotL k })) ∧
    (∀ sz, lookupStatus s k = some (Status.warm, sz) →
      TwoQ.Get s k =
        (sz, { s with warmL := removeKey s.warmL k,
                      warmSize := s.warmSize - sz,
                      hotL := (k, sz) :: s.hotL,
                      hotSize := s.hotSize + sz })) ∧
    (∀ sz, lookupStatus s k = some (Status.cold, sz) → TwoQ.Get s k = (-1, s)) := by
  refine ⟨fun h => ?_, fun sz h => ?_, fun sz h => ?_, fun sz h => ?_⟩ <;>
    simp [TwoQ.Get, h]

/-- C2 witness: the four cases of the Get theorem at concrete
states. -/
theorem c2_get_cases_witness :
    TwoQ.Get cwState "x" = (-1, cwState) ∧
    TwoQ.Get hwState "h" =
      (7, { hwState with hotL := ("h", 7) :: removeKey hwState.hotL "h" }) ∧
    TwoQ.Get wwState "w" =
      (9, { wwState with warmL := removeKey wwState.warmL "w",
                         warmSize := wwState.warmSize - 9,
                         hotL := ("w", 9) :: wwState.hotL,
                         hotSize := wwState.hotSize + 9 }) ∧
    TwoQ.Get cwState "c" = (-1, cwState) :=
  ⟨(c2_get_cases cwState "x").1 (by decide),
   (c2_get_cases hwState "h").2.1 7 (by decide),
   (c2_get_cases wwState "w").2.2.1 9 (by decide),
   (c2_get_cases cwState "c").2.2.2 5 (by decide)⟩

/-- C8.  PutOnStartup pushes the key to the front of the warm list
exactly when hot.size + warm.size + sz is at most the total capacity
and then returns true; otherwise, when the cold size budget admits
the item, it is pushed to the front of the cold list with result
false; otherwise nothing changes and the result is false.  No branch
calls prune. -/
theorem c8_put_on_startup (s : TwoQ) (k : String) (sz : Int) :
    (s.hotSize + s.warmSize + sz ≤ s.cap →
      TwoQ.PutOnStartup s k sz =
        ({ s with warmL := (k, sz) :: s.warmL, warmSize := s.warmSize + sz },
          true)) ∧
    (¬(s.hotSize + s.warmSize + sz ≤ s.cap) → s.coldSize + sz ≤ s.coldCap →
      TwoQ.PutOnStartup s k sz =
        ({ s with coldL := (k, sz) :: s.coldL, coldSize := s.coldSize + sz },
          false)) ∧
    (¬(s.hotSize + s.warmSize + sz ≤ s.cap) → ¬(s.coldSize + sz ≤ s.coldCap) →
      TwoQ.PutOnStartup s k sz = (s, false)) ∧
    ((TwoQ.PutOnStartup s k sz).2 = true ↔ s.hotSize + s.warmSize + sz ≤ s.cap) := by
  refine ⟨fun h => ?_, fun h h2 => ?_, fun h h2 => ?_, ?_⟩
  · simp [TwoQ.PutOnStartup, h]
  · simp [TwoQ.PutOnStartup, h, h2]
  · simp [TwoQ.PutOnStartup, h, h2]
  · by_cases h : s.hotSize + s.warmSize + sz ≤ s.cap
    · simp [TwoQ.PutOnStartup, h]
    · by_cases h2 : s.coldSize + sz ≤ s.coldCap <;>
        simp [TwoQ.PutOnStartup, h, h2]

/-- C8 witness: the three branches and the returned boolean at
concrete states. -/
theorem c8_put_on_startup_witness :
    TwoQ.PutOnStartup tq1000 "a" 100 =
      ({ tq1000 with warmL := [("a", 100)], warmSize := 100 }, true) ∧
    TwoQ.PutOnStartup bigWarmState "b" 300 =
      ({ bigWarmState with coldL := [("b", 300)], coldSize := 300 }, false) ∧
    TwoQ.PutOnStartup tq1000 "c" 2000 = (tq1000, false) ∧
    ((TwoQ.PutOnStartup tq1000 "a" 100).2 = true ↔
      tq1000.hotSize + tq1000.warmSize + 100 ≤ tq1000.cap) :=
  ⟨by
    have h := (c8_put_on_startup tq1000 "a" 100).1 (by decide)
    simpa using h,
   by
    have h := (c8_put_on_startup bigWarmState "b" 300).2.1 (by decide) (by decide)
    simpa using h,
   (c8_put_on_startup tq1000 "c" 2000).2.2.1 (by decide) (by decide),
   (c8_put_on_startup tq1000 "a" 100).2.2.2⟩

/-- Auxiliary: one step raises hits + misses by exactly one. -/
theorem stepGet_hits_add_misses (st : Stats) (r : Int) (b : Bool) :
    (stepGet st r b).hits + (stepGet st r b).misses =
      st.hits + st.misses + 1 := by
  unfold stepGet
  by_cases h : 0 ≤ r
  · cases b <;> simp [h] <;> ring
  · simp [h]
    ring

/-- Auxiliary: hits + misses after a run. -/
theorem runGets_hits_add_misses (evs : List (Int × Bool)) (st : Stats) :
    (runGets st evs).hits + (runGets st evs).misses =
      st.hits + st.misses + evs.length := by
  induction evs generalizing st with
  | nil => simp [runGets]
  | cons e t ih =>
    have h1 : runGets st (e :: t) = runGets (stepGet st e.1 e.2) t := rfl
    rw [h1, ih, stepGet_hits_add_misses]
    push_cast [List.length_cons]
    ring

/-- C6.  Starting from zero statistics, after any sequence of Get
calls that passed the empty key check, hits + misses equals the
number of such calls; and a call whose index lookup hit but whose
byte store read found nothing nets to exactly one miss with the hit
and its bytes reverted. -/
theorem c6_hits_misses_accounting :
    (∀ evs : List (Int × Bool),
      (runGets stats0 evs).hits + (runGets stats0 evs).misses =
        evs.length) ∧
    (∀ (st : Stats) (sz : Int), 0 ≤ sz →
      stepGet st sz false = { st with misses := st.misses + 1 }) := by
  constructor
  · intro evs
    have h := runGets_hits_add_misses evs stats0
    simpa [stats0] using h
  · intro st sz h
    simp [stepGet, h]

/-- C6 witness: the accounting theorem at a concrete call sequence
containing a plain hit, a downgraded hit and a miss, and the
downgrade transition at a concrete size. -/
theorem c6_hits_misses_accounting_witness :
    (runGets stats0 [(400, true), (300, false), (-1, true)]).hits +
        (runGets stats0 [(400, true), (300, false), (-1, true)]).misses = 3 ∧
    stepGet stats0 400 false = { stats0 with misses := stats0.misses + 1 } :=
  ⟨c6_hits_misses_accounting.1 [(400, true), (300, false), (-1, true)],
   c6_hits_misses_accounting.2 stats0 400 (by decide)⟩

/-- C7 counterexample.  The claim states a nil or EMPTY value with a
nil error is converted into the NoValue error and that the
normalised result always has exactly one of value and error
non-empty.  The source only tests val == nil, so a non-nil slice of
length zero with a nil error passes through as a success whose value
is empty and whose error is nil, contradicting both parts. -/
theorem c7_empty_value_counterexample :
    getResFromStore (OriginOutcome.ret (some []) none) = (some [], none) ∧
    (getResFromStore (OriginOutcome.ret (some []) none)).2 ≠
      some LruErr.noValue ∧
    valueNonEmpty (getResFromStore (OriginOutcome.ret (some []) none)).1 = false ∧
    (getResFromStore (OriginOutcome.ret (some []) none)).2.isSome = false := by
  refine ⟨rfl, by decide, by decide, by decide⟩

/-- C7 amended.  A nil value with a nil error is converted into the
NoValue error; after normalisation exactly one of value and error is
nil, and on error the value is nil.  (A non-nil empty slice counts as
a present value and is returned as a success.) -/
theorem c7_normalisation_amended (o : OriginOutcome) :
    (o = OriginOutcome.ret none none →
      getResFromStore o = (none, some LruErr.noValue)) ∧
    ((getResFromStore o).1.isSome = true ↔ (getResFromStore o).2 = none) ∧
    ((getResFromStore o).2.isSome = true → (getResFromStore o).1 = none) := by
  refine ⟨fun h => by subst h; rfl, ?_, ?_⟩ <;>
    rcases o with ⟨v, e⟩ | msg <;>
      first
      | (rcases e with e | e <;> rcases v with v | v <;> simp [getResFromStore])
      | simp [getResFromStore]

/-- C7 witness: the amended theorem at the nil-nil outcome. -/
theorem c7_normalisation_amended_witness :
    getResFromStore (OriginOutcome.ret none none) =
      (none, some LruErr.noValue) :=
  (c7_normalisation_amended (OriginOutcome.ret none none)).1 rfl

/-- The warm evict loop never touches the hot list, the hot size
field or any capacity field. -/
theorem evictWarmLoop_frame (fuel : Nat) :
    ∀ s : TwoQ,
      (evictWarmLoop fuel s).1.hotL = s.hotL ∧
      (evictWarmLoop fuel s).1.hotSize = s.hotSize ∧
      (evictWarmLoop fuel s).1.cap = s.cap ∧
      (evictWarmLoop fuel s).1.pruneCap = s.pruneCap ∧
      (evictWarmLoop fuel s).1.hotPruneCap = s.hotPruneCap ∧
      (evictWarmLoop fuel s).1.warmPruneCap = s.warmPruneCap ∧
      (evictWarmLoop fuel s).1.coldCap = s.coldCap := by
  induction fuel with
  | zero => intro s; simp [evictWarmLoop]
  | succ n ih =>
    intro s
    unfold evictWarmLoop
    by_cases hg : s.hotSize + s.warmSize > s.pruneCap ∧ s.warmSize > s.warmPruneCap
    · rw [if_pos hg]
      cases hl : s.warmL.getLast? with
      | none => simp
      | some p =>
        obtain ⟨k, sz⟩ := p
        simpa using ih
          { s with warmL := s.warmL.dropLast,
                   warmSize := s.warmSize - sz,
                   coldL := (k, sz) :: s.coldL,
                   coldSize := s.coldSize + sz }
    · rw [if_neg hg]
      exact ⟨rfl, rfl, rfl, rfl, rfl, rfl, rfl⟩

/-- The hot evict loop never touches the warm list, the warm size
field or any capacity field. -/
theorem evictHotLoop_frame (fuel : Nat) :
    ∀ s : TwoQ,
      (evictHotLoop fuel s).1.warmL = s.warmL ∧
      (evictHotLoop fuel s).1.warmSize = s.warmSize ∧
      (evictHotLoop fuel s).1.cap = s.cap ∧
      (evictHotLoop fuel s).1.pruneCap = s.pruneCap ∧
      (evictHotLoop fuel s).1.hotPruneCap = s.hotPruneCap ∧
      (evictHotLoop fuel s).1.warmPruneCap = s.warmPruneCap ∧
      (evictHotLoop fuel s).1.coldCap = s.coldCap := by
  induction fuel with
  | zero => intro s; simp [evictHotLoop]
  | succ n ih =>
    intro s
    unfold evictHotLoop
    by_cases hg : s.hotSize + s.warmSize > s.pruneCap ∧ s.hotSize > s.hotPruneCap
    · rw [if_pos hg]
      cases hl : s.hotL.getLast? with
      | none => simp
      | some p =>
        obtain ⟨k, sz⟩ := p
        simpa using ih
          { s with hotL := s.hotL.dropLast,
                   hotSize := s.hotSize - sz,
                   coldL := (k, sz) :: s.coldL,
                   coldSize := s.coldSize + sz }
    · rw [if_neg hg]
      exact ⟨rfl, rfl, rfl, rfl, rfl, rfl, rfl⟩

/-- On exit of the warm evict loop, the loop guard has failed or the
warm list is exhausted: either the total size is within the total
prune capacity, or the warm size field is within the warm prune
capacity, or the warm list is empty. -/
theorem evictWarmLoop_exit (fuel : Nat) :
    ∀ s : TwoQ, s.warmL.length ≤ fuel →
      (evictWarmLoop fuel s).1.hotSize + (evictWarmLoop fuel s).1.warmSize ≤
          (evictWarmLoop fuel s).1.pruneCap ∨
        (evictWarmLoop fuel s).1.warmSize ≤ (evictWarmLoop fuel s).1.warmPruneCap ∨
        (evictWarmLoop fuel s).1.warmL = [] := by
  induction fuel with
  | zero =>
    intro s h
    right; right
    simpa [evictWarmLoop] using List.length_eq_zero.mp (Nat.le_zero.mp h)
  | succ n ih =>
    intro s h
    unfold evictWarmLoop
    by_cases hg : s.hotSize + s.warmSize > s.pruneCap ∧ s.warmSize > s.warmPruneCap
    · rw [if_pos hg]
      cases hl : s.warmL.getLast? with
      | none =>
        right; right
        simpa using List.getLast?_eq_none_iff.mp hl
      | some p =>
        obtain ⟨k, sz⟩ := p
        have hne : s.warmL ≠ [] := by
          intro hnil
          rw [hnil] at hl
          simp at hl
        have hlen : s.warmL.dropLast.length ≤ n := by
          have := List.length_pos.mpr hne
          simp [List.length_dropLast]
          omega
        simpa using ih
          { s with warmL := s.warmL.dropLast,
                   warmSize := s.warmSize - sz,
                   coldL := (k, sz) :: s.coldL,
                   coldSize := s.coldSize + sz } hlen
    · rw [if_neg hg]
      rcases not_and_or.mp hg with h1 | h2
      · left
        simpa using not_lt.mp h1
      · right; left
        simpa using not_lt.mp h2

/-- On exit of the hot evict loop, the loop guard has failed or the
hot list is exhausted. -/
theorem evictHotLoop_exit (fuel : Nat) :
    ∀ s : TwoQ, s.hotL.length ≤ fuel →
      (evictHotLoop fuel s).1.hotSize + (evictHotLoop fuel s).1.warmSize ≤
          (evictHotLoop fuel s).1.pruneCap ∨
        (evictHotLoop fuel s).1.hotSize ≤ (evictHotLoop fuel s).1.hotPruneCap ∨
        (evictHotLoop fuel s).1.hotL = [] := by
  induction fuel with
  | zero =>
    intro s h
    right; right
    simpa [evictHotLoop] using List.length_eq_zero.mp (Nat.le_zero.mp h)
  | succ n ih =>
    intro s h
    unfold evictHotLoop
    by_cases hg : s.hotSize + s.warmSize > s.pruneCap ∧ s.hotSize > s.hotPruneCap
    · rw [if_pos hg]
      cases hl : s.hotL.getLast? with
      | none =>
        right; right
        simpa using List.getLast?_eq_none_iff.mp hl
      | some p =>
        obtain ⟨k, sz⟩ := p
        have hne : s.hotL ≠ [] := by
          intro hnil
          rw [hnil] at hl
          simp at hl
        have hlen : s.hotL.dropLast.length ≤ n := by
          have := List.length_pos.mpr hne
          simp [List.length_dropLast]
          omega
        simpa using ih
          { s with hotL := s.hotL.dropLast,
                   hotSize := s.hotSize - sz,
                   coldL := (k, sz) :: s.coldL,
                   coldSize := s.coldSize + sz } hlen
    · rw [if_neg hg]
      rcases not_and_or.mp hg with h1 | h2
      · left
        simpa using not_lt.mp h1
      · right; left
        simpa using not_lt.mp h2

/-- The cold trim loop touches nothing but the cold list and its
size field, and only removes items from the back of the cold list,
so the result is a front segment of the input list. -/
theorem pruneColdLoop_frame (fuel : Nat) :
    ∀ s : TwoQ,
      (pruneColdLoop fuel s).hotL = s.hotL ∧
      (pruneColdLoop fuel s).warmL = s.warmL ∧
      (pruneColdLoop fuel s).hotSize = s.hotSize ∧
      (pruneColdLoop fuel s).warmSize = s.warmSize ∧
      (pruneColdLoop fuel s).cap = s.cap ∧
      (pruneColdLoop fuel s).coldCap = s.coldCap ∧
      ∃ n, (pruneColdLoop fuel s).coldL = s.coldL.take n := by
  induction fuel with
  | zero =>
    intro s
    refine ⟨rfl, rfl, rfl, rfl, rfl, rfl, s.coldL.length, ?_⟩
    simp [pruneColdLoop]
  | succ n ih =>
    intro s
    unfold pruneColdLoop
    by_cases hg : s.coldSize > s.coldCap
    · rw [if_pos hg]
      cases hl : s.coldL.getLast? with
      | none => exact ⟨rfl, rfl, rfl, rfl, rfl, rfl, s.coldL.length, by simp⟩
      | some p =>
        obtain ⟨k, sz⟩ := p
        obtain ⟨h1, h2, h3, h4, h5, h6, m, hm⟩ := ih
          { s with coldL := s.coldL.dropLast, coldSize := s.coldSize - sz }
        refine ⟨h1, h2, h3, h4, h5, h6, min m (s.coldL.length - 1), ?_⟩
        rw [hm]
        show s.coldL.dropLast.take m = _
        rw [List.dropLast_eq_take, List.take_take]
    · rw [if_neg hg]
      exact ⟨rfl, rfl, rfl, rfl, rfl, rfl, s.coldL.length, by simp⟩

/-- On exit of the cold trim loop, the cold size field is within the
cold capacity or the cold list is empty. -/
theorem pruneColdLoop_exit (fuel : Nat) :
    ∀ s : TwoQ, s.coldL.length ≤ fuel →
      (pruneColdLoop fuel s).coldSize ≤ (pruneColdLoop fuel s).coldCap ∨
        (pruneColdLoop fuel s).coldL = [] := by
  induction fuel with
  | zero =>
    intro s h
    right
    simpa [pruneColdLoop] using List.length_eq_zero.mp (Nat.le_zero.mp h)
  | succ n ih =>
    intro s h
    unfold pruneColdLoop
    by_cases hg : s.coldSize > s.coldCap
    · rw [if_pos hg]
      cases hl : s.coldL.getLast? with
      | none =>
        right
        simpa using List.getLast?_eq_none_iff.mp hl
      | some p =>
        obtain ⟨k, sz⟩ := p
        have hne : s.coldL ≠ [] := by
          intro hnil
          rw [hnil] at hl
          simp at hl
        have hlen : s.coldL.dropLast.length ≤ n := by
          have := List.length_pos.mpr hne
          simp [List.length_dropLast]
          omega
        simpa using ih
          { s with coldL := s.coldL.dropLast, coldSize := s.coldSize - sz } hlen
    · rw [if_neg hg]
      left
      exact not_lt.mp hg

/-- C3.  Pruning structure of PutAndEvict: a put that finds the key
hot or warm returns no evicted keys and no bytes; prune returns no
evicted keys and no bytes when hot.size + warm.size is within the
total capacity; otherwise prune evicts from the warm queue first and
then from the hot queue, returning the warm keys followed by the hot
keys and the summed bytes, and finally trims the cold queue.  Each
eviction loop stops only when the total size is within the total
prune capacity, or its own size field is within its own prune
capacity, or its list is exhausted (the loops preserve the capacity
fields).  The cold trim brings the cold size within the cold
capacity or empties the cold list, deletes only from the back of the
cold list (the survivors are a front segment) and surfaces no key:
hot and warm lists, their sizes and the evicted keys are untouched
by it. -/
theorem c3_prune_structure :
    (∀ s : TwoQ, s.hotSize + s.warmSize ≤ s.cap → TwoQ.prune s = (s, [], 0)) ∧
    (∀ (s : TwoQ) (k : String) (sz old : Int) (st : Status),
      lookupStatus s k = some (st, old) → st = Status.hot ∨ st = Status.warm →
      (TwoQ.PutAndEvict s k sz).2 = ([], 0)) ∧
    (∀ s : TwoQ, ¬(s.hotSize + s.warmSize ≤ s.cap) →
      TwoQ.prune s =
        (TwoQ.pruneCold (evictHot (evictWarm s).1).1,
         (evictWarm s).2.1 ++ (evictHot (evictWarm s).1).2.1,
         (evictWarm s).2.2 + (evictHot (evictWarm s).1).2.2)) ∧
    (∀ s : TwoQ,
      (evictWarm s).1.hotSize + (evictWarm s).1.warmSize ≤
          (evictWarm s).1.pruneCap ∨
        (evictWarm s).1.warmSize ≤ (evictWarm s).1.warmPruneCap ∨
        (evictWarm s).1.warmL = []) ∧
    (∀ s : TwoQ,
      (evictHot s).1.hotSize + (evictHot s).1.warmSize ≤
          (evictHot s).1.pruneCap ∨
        (evictHot s).1.hotSize ≤ (evictHot s).1.hotPruneCap ∨
        (evictHot s).1.hotL = []) ∧
    (∀ s : TwoQ,
      (evictWarm s).1.pruneCap = s.pruneCap ∧
      (evictWarm s).1.warmPruneCap = s.warmPruneCap ∧
      (evictHot s).1.pruneCap = s.pruneCap ∧
      (evictHot s).1.hotPruneCap = s.hotPruneCap) ∧
    (∀ s : TwoQ,
      (TwoQ.pruneCold s).coldSize ≤ (TwoQ.pruneCold s).coldCap ∨
        (TwoQ.pruneCold s).coldL = []) ∧
    (∀ s : TwoQ,
      (TwoQ.pruneCold s).hotL = s.hotL ∧ (TwoQ.pruneCold s).warmL = s.warmL ∧
      (TwoQ.pruneCold s).hotSize = s.hotSize ∧
      (TwoQ.pruneCold s).warmSize = s.warmSize ∧
      ∃ n, (TwoQ.pruneCold s).coldL = s.coldL.take n) := by
  refine ⟨?_, ?_, ?_, ?_, ?_, ?_, ?_, ?_⟩
  · intro s h
    simp [TwoQ.prune, h]
  · intro s k sz old st hst hhw
    rcases hhw with h | h <;> subst h <;> simp [TwoQ.PutAndEvict, hst]
  · intro s h
    simp [TwoQ.prune, h]
  · intro s
    exact evictWarmLoop_exit s.warmL.length s (Nat.le_refl _)
  · intro s
    exact evictHotLoop_exit s.hotL.length s (Nat.le_refl _)
  · intro s
    obtain ⟨_, _, _, hw1, _, hw2, _⟩ := evictWarmLoop_frame s.warmL.length s
    obtain ⟨_, _, _, hh1, hh2, _, _⟩ := evictHotLoop_frame s.hotL.length s
    exact ⟨hw1, hw2, hh1, hh2⟩
  · intro s
    exact pruneColdLoop_exit s.coldL.length s (Nat.le_refl _)
  · intro s
    obtain ⟨h1, h2, h3, h4, _, _, n, hn⟩ := pruneColdLoop_frame s.coldL.length s
    exact ⟨h1, h2, h3, h4, n, hn⟩

/-- C3 witness: the hypothesis-bearing conjuncts at concrete
states: a state within capacity, a hot re-put, and a state over
capacity. -/
theorem c3_prune_structure_witness :
    TwoQ.prune tq1000 = (tq1000, [], 0) ∧
    (TwoQ.PutAndEvict hwState "h" 10).2 = ([], 0) ∧
    TwoQ.prune overState =
      (TwoQ.pruneCold (evictHot (evictWarm overState).1).1,
       (evictWarm overState).2.1 ++ (evictHot (evictWarm overState).1).2.1,
       (evictWarm overState).2.2 + (evictHot (evictWarm overState).1).2.2) :=
  ⟨c3_prune_structure.1 tq1000 (by decide),
   c3_prune_structure.2.1 hwState "h" 10 7 Status.hot (by decide) (Or.inl rfl),
   c3_prune_structure.2.2.1 overState (by decide)⟩

/-- A lookup misses exactly when the key is not among the keys. -/
theorem lookup_none_iff_not_mem_keys (l : List (String × Int)) (k : String) :
    l.lookup k = none ↔ k ∉ keysOf l := by
  rw [List.lookup_eq_none_iff]
  constructor
  · intro h hk
    rcases List.mem_map.mp hk with ⟨p, hp, hpk⟩
    have hb := h p hp
    rw [hpk] at hb
    simp at hb
  · intro h p hp
    rw [bne_iff_ne]
    intro he
    exact h (List.mem_map.mpr ⟨p, hp, he.symm⟩)

/-- Decomposition of a list at its last element, with the size sum. -/
theorem getLast?_decomp (l : List (String × Int)) (p : String × Int)
    (h : l.getLast? = some p) :
    l = l.dropLast ++ [p] ∧ sumSizes l.dropLast = sumSizes l - p.2 := by
  obtain ⟨ys, hys⟩ := List.getLast?_eq_some_iff.mp h
  subst hys
  refine ⟨by simp, ?_⟩
  simp [sumSizes]

/-- Size sums of lists of nonnegative items are nonnegative. -/
theorem sumSizes_nonneg (l : List (String × Int)) (h : ∀ p ∈ l, 0 ≤ p.2) :
    0 ≤ sumSizes l := by
  refine List.sum_nonneg ?_
  intro x hx
  rcases List.mem_map.mp hx with ⟨p, hp, hpx⟩
  exact hpx ▸ h p hp

/-- Any item size is at most the size sum of a nonnegative list. -/
theorem le_sumSizes_of_mem (l : List (String × Int)) (k : String) (sz : Int)
    (hnn : ∀ p ∈ l, 0 ≤ p.2) (hm : (k, sz) ∈ l) : sz ≤ sumSizes l := by
  refine List.single_le_sum ?_ sz ?_
  · intro x hx
    rcases List.mem_map.mp hx with ⟨p, hp, hpx⟩
    exact hpx ▸ hnn p hp
  · exact List.mem_map.mpr ⟨(k, sz), hm, rfl⟩

/-- Unfolding equation for one warm evict iteration. -/
theorem evictWarmLoop_succ_pop (n : Nat) (t : TwoQ) (k : String) (sz : Int)
    (hg : t.hotSize + t.warmSize > t.pruneCap ∧ t.warmSize > t.warmPruneCap)
    (hl : t.warmL.getLast? = some (k, sz)) :
    evictWarmLoop (n + 1) t =
      ((evictWarmLoop n (popWarm t k sz)).1,
       k :: (evictWarmLoop n (popWarm t k sz)).2.1,
       sz + (evictWarmLoop n (popWarm t k sz)).2.2) := by
  conv_lhs => rw [evictWarmLoop]
  rw [if_pos hg, hl]
  rfl

/-- Unfolding equation for one hot evict iteration. -/
theorem evictHotLoop_succ_pop (n : Nat) (t : TwoQ) (k : String) (sz : Int)
    (hg : t.hotSize + t.warmSize > t.pruneCap ∧ t.hotSize > t.hotPruneCap)
    (hl : t.hotL.getLast? = some (k, sz)) :
    evictHotLoop (n + 1) t =
      ((evictHotLoop n (popHot t k sz)).1,
       k :: (evictHotLoop n (popHot t k sz)).2.1,
       sz + (evictHotLoop n (popHot t k sz)).2.2) := by
  conv_lhs => rw [evictHotLoop]
  rw [if_pos hg, hl]
  rfl

/-- Unfolding equation for one cold trim iteration. -/
theorem pruneColdLoop_succ_pop (n : Nat) (t : TwoQ) (k : String) (sz : Int)
    (hg : t.coldSize > t.coldCap)
    (hl : t.coldL.getLast? = some (k, sz)) :
    pruneColdLoop (n + 1) t = pruneColdLoop n (popCold t sz) := by
  conv_lhs => rw [pruneColdLoop]
  rw [if_pos hg, hl]
  rfl

/-- A loop run on an empty warm list changes nothing and evicts
nothing. -/
theorem evictWarmLoop_nil (fuel : Nat) (t : TwoQ) (h : t.warmL = []) :
    evictWarmLoop fuel t = (t, [], 0) := by
  cases fuel with
  | zero => rfl
  | succ n =>
    unfold evictWarmLoop
    by_cases hg : t.hotSize + t.warmSize > t.pruneCap ∧ t.warmSize > t.warmPruneCap
    · rw [if_pos hg, h]
      rfl
    · rw [if_neg hg]

/-- Unfolding equation: failed guard stops the warm evict loop. -/
theorem evictWarmLoop_succ_stop (n : Nat) (t : TwoQ)
    (h : ¬(t.hotSize + t.warmSize > t.pruneCap ∧ t.warmSize > t.warmPruneCap)) :
    evictWarmLoop (n + 1) t = (t, [], 0) := by
  conv_lhs => rw [evictWarmLoop]
  rw [if_neg h]

/-- Unfolding equation: an exhausted warm list stops the loop. -/
theorem evictWarmLoop_succ_none (n : Nat) (t : TwoQ)
    (hg : t.hotSize + t.warmSize > t.pruneCap ∧ t.warmSize > t.warmPruneCap)
    (hl : t.warmL.getLast? = none) :
    evictWarmLoop (n + 1) t = (t, [], 0) := by
  conv_lhs => rw [evictWarmLoop]
  rw [if_pos hg, hl]

/-- Unfolding equation: failed guard stops the hot evict loop. -/
theorem evictHotLoop_succ_stop (n : Nat) (t : TwoQ)
    (h : ¬(t.hotSize + t.warmSize > t.pruneCap ∧ t.hotSize > t.hotPruneCap)) :
    evictHotLoop (n + 1) t = (t, [], 0) := by
  conv_lhs => rw [evictHotLoop]
  rw [if_neg h]

/-- Unfolding equation: an exhausted hot list stops the loop. -/
theorem evictHotLoop_succ_none (n : Nat) (t : TwoQ)
    (hg : t.hotSize + t.warmSize > t.pruneCap ∧ t.hotSize > t.hotPruneCap)
    (hl : t.hotL.getLast? = none) :
    evictHotLoop (n + 1) t = (t, [], 0) := by
  conv_lhs => rw [evictHotLoop]
  rw [if_pos hg, hl]

/-- Unfolding equation: failed guard stops the cold trim loop. -/
theorem pruneColdLoop_succ_stop (n : Nat) (t : TwoQ)
    (h : ¬(t.coldSize > t.coldCap)) :
    pruneColdLoop (n + 1) t = t := by
  conv_lhs => rw [pruneColdLoop]
  rw [if_neg h]

/-- Unfolding equation: an exhausted cold list stops the loop. -/
theorem pruneColdLoop_succ_none (n : Nat) (t : TwoQ)
    (hg : t.coldSize > t.coldCap) (hl : t.coldL.getLast? = none) :
    pruneColdLoop (n + 1) t = t := by
  conv_lhs => rw [pruneColdLoop]
  rw [if_pos hg, hl]

/-- The warm evict loop preserves the warm and cold size accounting
and the nonnegativity of warm and cold item sizes. -/
theorem evictWarmLoop_inv (fuel : Nat) :
    ∀ t : TwoQ,
      t.warmSize = sumSizes t.warmL →
      (∀ p ∈ t.warmL, 0 ≤ p.2) →
      t.coldSize = sumSizes t.coldL →
      (∀ p ∈ t.coldL, 0 ≤ p.2) →
      (evictWarmLoop fuel t).1.warmSize =
          sumSizes (evictWarmLoop fuel t).1.warmL ∧
        (∀ p ∈ (evictWarmLoop fuel t).1.warmL, 0 ≤ p.2) ∧
        (evictWarmLoop fuel t).1.coldSize =
          sumSizes (evictWarmLoop fuel t).1.coldL ∧
        (∀ p ∈ (evictWarmLoop fuel t).1.coldL, 0 ≤ p.2) := by
  induction fuel with
  | zero =>
    intro t h1 h2 h3 h4
    exact ⟨h1, h2, h3, h4⟩
  | succ n ih =>
    intro t h1 h2 h3 h4
    by_cases hg : t.hotSize + t.warmSize > t.pruneCap ∧ t.warmSize > t.warmPruneCap
    · cases hl : t.warmL.getLast? with
      | none =>
        rw [evictWarmLoop_succ_none n t hg hl]
        exact ⟨h1, h2, h3, h4⟩
      | some p =>
        obtain ⟨k2, sz2⟩ := p
        rw [evictWarmLoop_succ_pop n t k2 sz2 hg hl]
        obtain ⟨_, hdecsum⟩ := getLast?_decomp t.warmL (k2, sz2) hl
        refine ih (popWarm t k2 sz2) ?_ ?_ ?_ ?_
        · show t.warmSize - sz2 = sumSizes t.warmL.dropLast
          rw [hdecsum, h1]
        · intro p hp2
          exact h2 p ((List.dropLast_sublist _).subset hp2)
        · show t.coldSize + sz2 = sumSizes ((k2, sz2) :: t.coldL)
          rw [h3]
          simp [sumSizes]
          ring
        · intro p hp2
          rcases List.mem_cons.mp hp2 with h | h
          · subst h
            exact h2 _ (List.mem_of_getLast?_eq_some hl)
          · exact h4 p h
    · rw [evictWarmLoop_succ_stop n t hg]
      exact ⟨h1, h2, h3, h4⟩

/-- The hot evict loop preserves the nonnegativity of hot item sizes
and the cold size accounting and nonnegativity. -/
theorem evictHotLoop_inv (fuel : Nat) :
    ∀ t : TwoQ,
      (∀ p ∈ t.hotL, 0 ≤ p.2) →
      t.coldSize = sumSizes t.coldL →
      (∀ p ∈ t.coldL, 0 ≤ p.2) →
      (∀ p ∈ (evictHotLoop fuel t).1.hotL, 0 ≤ p.2) ∧
        (evictHotLoop fuel t).1.coldSize =
          sumSizes (evictHotLoop fuel t).1.coldL ∧
        (∀ p ∈ (evictHotLoop fuel t).1.coldL, 0 ≤ p.2) := by
  induction fuel with
  | zero =>
    intro t h2 h3 h4
    exact ⟨h2, h3, h4⟩
  | succ n ih =>
    intro t h2 h3 h4
    by_cases hg : t.hotSize + t.warmSize > t.pruneCap ∧ t.hotSize > t.hotPruneCap
    · cases hl : t.hotL.getLast? with
      | none =>
        rw [evictHotLoop_succ_none n t hg hl]
        exact ⟨h2, h3, h4⟩
      | some p =>
        obtain ⟨k2, sz2⟩ := p
        rw [evictHotLoop_succ_pop n t k2 sz2 hg hl]
        refine ih (popHot t k2 sz2) ?_ ?_ ?_
        · intro p hp2
          exact h2 p ((List.dropLast_sublist _).subset hp2)
        · show t.coldSize + sz2 = sumSizes ((k2, sz2) :: t.coldL)
          rw [h3]
          simp [sumSizes]
          ring
        · intro p hp2
          rcases List.mem_cons.mp hp2 with h | h
          · subst h
            exact h2 _ (List.mem_of_getLast?_eq_some hl)
          · exact h4 p h
    · rw [evictHotLoop_succ_stop n t hg]
      exact ⟨h2, h3, h4⟩

/-- The hot evict loop only adds to the cold list and only removes
from the back of the hot list: cold items persist and the surviving
hot list is a front segment. -/
theorem evictHotLoop_cold_mono (fuel : Nat) :
    ∀ t : TwoQ,
      (∀ p ∈ t.coldL, p ∈ (evictHotLoop fuel t).1.coldL) ∧
      (∃ n, (evictHotLoop fuel t).1.hotL = t.hotL.take n) := by
  induction fuel with
  | zero =>
    intro t
    exact ⟨fun p hp => hp, t.hotL.length, by simp [evictHotLoop]⟩
  | succ n ih =>
    intro t
    by_cases hg : t.hotSize + t.warmSize > t.pruneCap ∧ t.hotSize > t.hotPruneCap
    · cases hl : t.hotL.getLast? with
      | none =>
        rw [evictHotLoop_succ_none n t hg hl]
        exact ⟨fun p hp => hp, t.hotL.length, by simp⟩
      | some p =>
        obtain ⟨k2, sz2⟩ := p
        rw [evictHotLoop_succ_pop n t k2 sz2 hg hl]
        obtain ⟨hmono, m, hm⟩ := ih (popHot t k2 sz2)
        refine ⟨fun p hp => hmono p (List.mem_cons_of_mem _ hp), ?_⟩
        refine ⟨min m (t.hotL.length - 1), ?_⟩
        rw [hm]
        show t.hotL.dropLast.take m = _
        rw [List.dropLast_eq_take, List.take_take]
    · rw [evictHotLoop_succ_stop n t hg]
      exact ⟨fun p hp => hp, t.hotL.length, by simp⟩

/-- When the front item of the warm list alone is over both the
total prune capacity and the warm prune capacity, and the size
fields are honest with nonnegative item sizes, the warm evict loop
drains the whole warm list: the front key is among the evicted keys,
the surviving warm list is empty, and the front item now sits on the
cold list. -/
theorem evictWarmLoop_pops_head (fuel : Nat) :
    ∀ (t : TwoQ) (k : String) (sz : Int) (rest : List (String × Int)),
      t.warmL.length ≤ fuel →
      t.warmL = (k, sz) :: rest →
      t.warmSize = sumSizes t.warmL →
      (∀ p ∈ t.warmL, 0 ≤ p.2) →
      0 ≤ t.hotSize →
      t.pruneCap < sz →
      t.warmPruneCap < sz →
      k ∈ (evictWarmLoop fuel t).2.1 ∧
        (evictWarmLoop fuel t).1.warmL = [] ∧
        (k, sz) ∈ (evictWarmLoop fuel t).1.coldL := by
  induction fuel with
  | zero =>
    intro t k sz rest hfuel hhead _ _ _ _ _
    rw [hhead] at hfuel
    simp at hfuel
  | succ n ih =>
    intro t k sz rest hfuel hhead hsum hnn hhot hp hwp
    have hrest_nn : ∀ p ∈ rest, 0 ≤ p.2 := fun p hp2 =>
      hnn p (hhead ▸ List.mem_cons_of_mem _ hp2)
    have hsz_le : sz ≤ t.warmSize := by
      rw [hsum, hhead]
      have := sumSizes_nonneg rest hrest_nn
      simp [sumSizes] at this ⊢
      linarith
    have hg : t.hotSize + t.warmSize > t.pruneCap ∧ t.warmSize > t.warmPruneCap :=
      ⟨by linarith, by linarith⟩
    cases hl : t.warmL.getLast? with
    | none =>
      rw [List.getLast?_eq_none_iff] at hl
      rw [hhead] at hl
      simp at hl
    | some p =>
      obtain ⟨k2, sz2⟩ := p
      rw [evictWarmLoop_succ_pop n t k2 sz2 hg hl]
      obtain ⟨hdec, hdecsum⟩ := getLast?_decomp t.warmL (k2, sz2) hl
      cases rest with
      | nil =>
        rw [hhead] at hl
        simp at hl
        obtain ⟨hk, hsz⟩ := hl
        subst hk
        subst hsz
        have hnil : (popWarm t k sz).warmL = [] := by
          simp [popWarm, hhead]
        rw [evictWarmLoop_nil n _ hnil]
        refine ⟨List.mem_cons_self _ _, hnil, ?_⟩
        simp [popWarm]
      | cons q qs =>
        have hdl : (popWarm t k2 sz2).warmL = (k, sz) :: (q :: qs).dropLast := by
          show t.warmL.dropLast = _
          rw [hhead]
          rfl
        obtain ⟨h1, h2, h3⟩ := ih (popWarm t k2 sz2) k sz ((q :: qs).dropLast)
          (by
            show t.warmL.dropLast.length ≤ n
            rw [hhead] at hfuel ⊢
            simp at hfuel ⊢
            omega)
          hdl
          (by
            show t.warmSize - sz2 = sumSizes t.warmL.dropLast
            rw [hdecsum, hsum])
          (by
            intro p hp2
            exact hnn p ((List.dropLast_sublist _).subset hp2))
          hhot hp hwp
        exact ⟨List.mem_cons_of_mem _ h1, h2, h3⟩

/-- The warm evict loop permutes the global key list: items move
from the warm queue to the cold queue but no key appears or
disappears. -/
theorem evictWarmLoop_keys_perm (fuel : Nat) :
    ∀ t : TwoQ, (allKeys (evictWarmLoop fuel t).1).Perm (allKeys t) := by
  induction fuel with
  | zero => intro t; exact List.Perm.refl _
  | succ n ih =>
    intro t
    by_cases hg : t.hotSize + t.warmSize > t.pruneCap ∧ t.warmSize > t.warmPruneCap
    · cases hl : t.warmL.getLast? with
      | none =>
        rw [evictWarmLoop_succ_none n t hg hl]
      | some p =>
        obtain ⟨k2, sz2⟩ := p
        rw [evictWarmLoop_succ_pop n t k2 sz2 hg hl]
        refine (ih (popWarm t k2 sz2)).trans ?_
        have hdec := (getLast?_decomp t.warmL (k2, sz2) hl).1
        have hkeys : keysOf t.warmL = keysOf t.warmL.dropLast ++ [k2] := by
          conv_lhs => rw [hdec]
          simp [keysOf]
        have heq : allKeys (popWarm t k2 sz2) = allKeys t := by
          simp only [allKeys, popWarm]
          rw [hkeys]
          simp [keysOf, List.append_assoc]
        exact heq ▸ List.Perm.refl _
    · rw [evictWarmLoop_succ_stop n t hg]

/-- The hot evict loop permutes the global key list. -/
theorem evictHotLoop_keys_perm (fuel : Nat) :
    ∀ t : TwoQ, (allKeys (evictHotLoop fuel t).1).Perm (allKeys t) := by
  induction fuel with
  | zero => intro t; exact List.Perm.refl _
  | succ n ih =>
    intro t
    by_cases hg : t.hotSize + t.warmSize > t.pruneCap ∧ t.hotSize > t.hotPruneCap
    · cases hl : t.hotL.getLast? with
      | none =>
        rw [evictHotLoop_succ_none n t hg hl]
      | some p =>
        obtain ⟨k2, sz2⟩ := p
        rw [evictHotLoop_succ_pop n t k2 sz2 hg hl]
        refine (ih (popHot t k2 sz2)).trans ?_
        have hdec := (getLast?_decomp t.hotL (k2, sz2) hl).1
        have hkeys : keysOf t.hotL = keysOf t.hotL.dropLast ++ [k2] := by
          conv_lhs => rw [hdec]
          simp [keysOf]
        simp only [allKeys, popHot]
        rw [hkeys]
        have h1 := @List.perm_middle String k2
          (keysOf t.hotL.dropLast ++ keysOf t.warmL) (keysOf t.coldL)
        have h2 := @List.perm_middle String k2
          (keysOf t.hotL.dropLast) (keysOf t.warmL ++ keysOf t.coldL)
        refine h1.trans ?_
        have hEq1 :
            k2 :: ((keysOf t.hotL.dropLast ++ keysOf t.warmL) ++ keysOf t.coldL) =
              k2 :: (keysOf t.hotL.dropLast ++ (keysOf t.warmL ++ keysOf t.coldL)) := by
          simp [List.append_assoc]
        rw [hEq1]
        have hEq2 :
            keysOf t.hotL.dropLast ++ k2 :: (keysOf t.warmL ++ keysOf t.coldL) =
              (keysOf t.hotL.dropLast ++ [k2]) ++ keysOf t.warmL ++ keysOf t.coldL := by
          simp [List.append_assoc]
        exact hEq2 ▸ h2.symm
    · rw [evictHotLoop_succ_stop n t hg]

/-- When an item on the cold list alone is over the cold capacity,
the cold trim loop deletes it (honest size field, nonnegative item
sizes and no duplicated cold keys assumed): its key is absent from
the surviving cold list. -/
theorem pruneColdLoop_deletes_big (fuel : Nat) :
    ∀ (t : TwoQ) (k : String) (sz : Int),
      t.coldL.length ≤ fuel →
      t.coldSize = sumSizes t.coldL →
      (∀ p ∈ t.coldL, 0 ≤ p.2) →
      (keysOf t.coldL).Nodup →
      (k, sz) ∈ t.coldL →
      t.coldCap < sz →
      k ∉ keysOf (pruneColdLoop fuel t).coldL := by
  induction fuel with
  | zero =>
    intro t k sz hfuel _ _ _ hmem _
    rw [List.length_eq_zero.mp (Nat.le_zero.mp hfuel)] at hmem
    simp at hmem
  | succ n ih =>
    intro t k sz hfuel hsum hnn hnd hmem hcap
    have hg : t.coldSize > t.coldCap := by
      have := le_sumSizes_of_mem t.coldL k sz hnn hmem
      rw [hsum]
      linarith
    cases hl : t.coldL.getLast? with
    | none =>
      rw [List.getLast?_eq_none_iff] at hl
      rw [hl] at hmem
      simp at hmem
    | some p =>
      obtain ⟨k2, sz2⟩ := p
      rw [pruneColdLoop_succ_pop n t k2 sz2 hg hl]
      obtain ⟨hdec, hdecsum⟩ := getLast?_decomp t.coldL (k2, sz2) hl
      have hsplit : keysOf t.coldL = keysOf t.coldL.dropLast ++ [k2] := by
        conv_lhs => rw [hdec]
        simp [keysOf]
      have hnd' : (keysOf t.coldL.dropLast).Nodup := by
        rw [hsplit] at hnd
        exact (List.nodup_append.mp hnd).1
      have hnonempty : t.coldL ≠ [] := by
        intro hnil
        rw [hnil] at hl
        simp at hl
      have hmem2 : (k, sz) ∈ t.coldL.dropLast ∨ (k, sz) = (k2, sz2) := by
        conv at hmem => rw [hdec]
        rcases List.mem_append.mp hmem with h | h
        · exact Or.inl h
        · exact Or.inr (by simpa using h)
      rcases hmem2 with hin | heq
      · refine ih (popCold t sz2) k sz ?_ ?_ ?_ hnd' hin hcap
        · show t.coldL.dropLast.length ≤ n
          have := List.length_pos.mpr hnonempty
          simp [List.length_dropLast]
          omega
        · show t.coldSize - sz2 = sumSizes t.coldL.dropLast
          rw [hdecsum, hsum]
        · intro p hp2
          exact hnn p ((List.dropLast_sublist _).subset hp2)
      · have hk : k = k2 := congrArg Prod.fst heq
        have hknotin : k ∉ keysOf t.coldL.dropLast := by
          rw [hsplit] at hnd
          have hdisj := (List.nodup_append.mp hnd).2.2
          intro hkk
          exact hdisj hkk (by simp [hk])
        obtain ⟨_, _, _, _, _, _, m, hm⟩ := pruneColdLoop_frame n (popCold t sz2)
        intro hkk
        rw [hm] at hkk
        rcases List.mem_map.mp hkk with ⟨pp, hpp, hppk⟩
        exact hknotin (List.mem_map.mpr ⟨pp, List.mem_of_mem_take hpp, hppk⟩)

/-- C10 counterexample.  On the reachable state produced by putting
key a with sizes 100, 5000 and 100 in turn (which leaves stale size
fields behind), inserting the fresh key k with size 1100 — over both
the total capacity 1000 and the cold capacity 500 — evicts only a,
leaves k resident in Warm, and a following Get of k returns 1100
rather than -1. -/
theorem c10_drift_counterexample :
    (runPuts tq1000 [("a", 100), ("a", 5000), ("a", 100)]).cap = 1000 ∧
    (runPuts tq1000 [("a", 100), ("a", 5000), ("a", 100)]).coldCap = 500 ∧
    lookupStatus (runPuts tq1000 [("a", 100), ("a", 5000), ("a", 100)]) "k" =
      none ∧
    (TwoQ.PutAndEvict (runPuts tq1000 [("a", 100), ("a", 5000), ("a", 100)])
        "k" 1100).2.1 = ["a"] ∧
    ¬("k" ∈ (TwoQ.PutAndEvict
        (runPuts tq1000 [("a", 100), ("a", 5000), ("a", 100)]) "k" 1100).2.1) ∧
    (TwoQ.Get (TwoQ.PutAndEvict
        (runPuts tq1000 [("a", 100), ("a", 5000), ("a", 100)]) "k" 1100).1
        "k").1 = 1100 := by
  decide

/-- C10 amended.  In a well-formed state (honest size fields,
nonnegative item sizes, no key duplication, NewTwoQ capacity
bounds), PutAndEvict of a key absent from the index with a size
strictly over the total capacity reports that key among the evicted
keys; and when the size is also over the cold capacity the item is
deleted from the index entirely, so an immediately following Get of
the key returns -1. -/
theorem c10_oversized_insert_amended (s : TwoQ) (k : String) (sz : Int)
    (hwf : WF s) (habs : lookupStatus s k = none) (hbig : s.cap < sz) :
    k ∈ (TwoQ.PutAndEvict s k sz).2.1 ∧
    (s.coldCap < sz →
      lookupStatus (TwoQ.PutAndEvict s k sz).1 k = none ∧
      (TwoQ.Get (TwoQ.PutAndEvict s k sz).1 k).1 = -1) := by
  obtain ⟨hHS, hWS, hCS, hHnn, hWnn, hCnn, hND, hcap0, hpcap, hwpcap⟩ := hwf
  have habs3 : s.hotL.lookup k = none ∧ s.warmL.lookup k = none ∧
      s.coldL.lookup k = none := by
    unfold lookupStatus at habs
    cases h1 : s.hotL.lookup k with
    | some v => rw [h1] at habs; simp at habs
    | none =>
      rw [h1] at habs
      cases h2 : s.warmL.lookup k with
      | some v => rw [h2] at habs; simp at habs
      | none =>
        rw [h2] at habs
        cases h3 : s.coldL.lookup k with
        | some v => rw [h3] at habs; simp at habs
        | none => exact ⟨rfl, rfl, rfl⟩
  obtain ⟨hlh, hlw, hlc⟩ := habs3
  have hkh : k ∉ keysOf s.hotL := (lookup_none_iff_not_mem_keys _ _).mp hlh
  have hkw : k ∉ keysOf s.warmL := (lookup_none_iff_not_mem_keys _ _).mp hlw
  have hkc : k ∉ keysOf s.coldL := (lookup_none_iff_not_mem_keys _ _).mp hlc
  have hh0 : 0 ≤ s.hotSize := hHS ▸ sumSizes_nonneg _ hHnn
  have hw0 : 0 ≤ s.warmSize := hWS ▸ sumSizes_nonneg _ hWnn
  have hsz0 : 0 < sz := lt_of_le_of_lt hcap0 hbig
  set s2 : TwoQ :=
    { s with warmL := (k, sz) :: s.warmL, warmSize := s.warmSize + sz }
    with hs2def
  have hput : TwoQ.PutAndEvict s k sz = TwoQ.prune s2 := by
    unfold TwoQ.PutAndEvict
    rw [habs]
  have hover2 : ¬(s2.hotSize + s2.warmSize ≤ s2.cap) := by
    simp only [hs2def]
    intro hle
    linarith
  have hprune : TwoQ.PutAndEvict s k sz =
      (TwoQ.pruneCold (evictHot (evictWarm s2).1).1,
       (evictWarm s2).2.1 ++ (evictHot (evictWarm s2).1).2.1,
       (evictWarm s2).2.2 + (evictHot (evictWarm s2).1).2.2) := by
    rw [hput]
    unfold TwoQ.prune
    rw [if_neg hover2]
  have hs2warm : s2.warmL = (k, sz) :: s.warmL := by rw [hs2def]
  have hsum2 : s2.warmSize = sumSizes s2.warmL := by
    simp only [hs2def]
    show s.warmSize + sz = sumSizes ((k, sz) :: s.warmL)
    rw [hWS]
    simp [sumSizes]
    ring
  have hnn2 : ∀ p ∈ s2.warmL, 0 ≤ p.2 := by
    rw [hs2warm]
    intro p hp2
    rcases List.mem_cons.mp hp2 with h | h
    · subst h
      exact le_of_lt hsz0
    · exact hWnn p h
  have hhot2 : 0 ≤ s2.hotSize := hh0
  have hpc2 : s2.pruneCap < sz := lt_of_le_of_lt hpcap hbig
  have hwpc2 : s2.warmPruneCap < sz := lt_of_le_of_lt hwpcap hbig
  obtain ⟨hkev, hwnil, hkcold⟩ := evictWarmLoop_pops_head
    s2.warmL.length s2 k sz s.warmL (Nat.le_refl _) hs2warm
    hsum2 hnn2 hhot2 hpc2 hwpc2
  have hWeq : evictWarm s2 = evictWarmLoop s2.warmL.length s2 := rfl
  constructor
  · rw [hprune, hWeq]
    exact List.mem_append_left _ hkev
  · intro hc
    have hcold2 : s2.coldSize = sumSizes s2.coldL := hCS
    have hcoldnn2 : ∀ p ∈ s2.coldL, 0 ≤ p.2 := hCnn
    obtain ⟨_, _, hwcs, hwcnn⟩ := evictWarmLoop_inv
      s2.warmL.length s2 hsum2 hnn2 hcold2 hcoldnn2
    obtain ⟨hfhotL, hfhotSize, _, _, _, _, hfcoldCap⟩ :=
      evictWarmLoop_frame s2.warmL.length s2
    set w1 : TwoQ := (evictWarmLoop s2.warmL.length s2).1 with hw1def
    have hwHot : ∀ p ∈ w1.hotL, 0 ≤ p.2 := by
      rw [hfhotL]
      simp only [hs2def]
      exact hHnn
    obtain ⟨hhHot, hhcs, hhcnn⟩ :=
      evictHotLoop_inv w1.hotL.length w1 hwHot hwcs hwcnn
    obtain ⟨hmono, m, htake⟩ := evictHotLoop_cold_mono w1.hotL.length w1
    set h1 : TwoQ := (evictHotLoop w1.hotL.length w1).1 with hh1def
    have hHeq : evictHot w1 = evictHotLoop w1.hotL.length w1 := rfl
    have hkcold2 : (k, sz) ∈ h1.coldL := hmono _ hkcold
    obtain ⟨hfwarmL, _, _, _, _, _, hfcoldCap2⟩ :=
      evictHotLoop_frame w1.hotL.length w1
    have hnd2 : (allKeys s2).Nodup := by
      have h1p := @List.perm_middle String k (keysOf s.hotL) (keysOf s.warmL)
      have hperm : (allKeys s2).Perm (k :: allKeys s) := by
        have h2p := h1p.append_right (keysOf s.coldL)
        simp only [hs2def]
        simp [allKeys, keysOf, List.append_assoc]
      refine hperm.symm.nodup ?_
      refine List.nodup_cons.mpr ⟨?_, hND⟩
      intro hk
      simp only [allKeys, List.mem_append] at hk
      rcases hk with (h | h) | h
      · exact hkh h
      · exact hkw h
      · exact hkc h
    have hndh : (allKeys h1).Nodup := by
      have p1 := evictWarmLoop_keys_perm s2.warmL.length s2
      have p2 := evictHotLoop_keys_perm w1.hotL.length w1
      exact ((p2.trans p1).symm).nodup hnd2
    have hndcold : (keysOf h1.coldL).Nodup := by
      simp only [allKeys] at hndh
      exact (List.nodup_append.mp hndh).2.1
    have hcc : h1.coldCap < sz := by
      rw [hfcoldCap2, hfcoldCap]
      simp only [hs2def]
      exact hc
    have hdel := pruneColdLoop_deletes_big h1.coldL.length h1 k sz
      (Nat.le_refl _) hhcs hhcnn hndcold hkcold2 hcc
    obtain ⟨hfh, hfw, _, _, _, _, mm, hmm⟩ :=
      pruneColdLoop_frame h1.coldL.length h1
    have hPCeq : TwoQ.pruneCold h1 = pruneColdLoop h1.coldL.length h1 := rfl
    have hkfh : k ∉ keysOf (pruneColdLoop h1.coldL.length h1).hotL := by
      rw [hfh, htake, hfhotL]
      simp only [hs2def]
      intro hkk
      rcases List.mem_map.mp hkk with ⟨pp, hpp, hppk⟩
      exact hkh (List.mem_map.mpr ⟨pp, List.mem_of_mem_take hpp, hppk⟩)
    have hkfw : (pruneColdLoop h1.coldL.length h1).warmL = [] := by
      rw [hfw, hfwarmL]
      exact hwnil
    have hfin : lookupStatus (pruneColdLoop h1.coldL.length h1) k = none := by
      unfold lookupStatus
      rw [(lookup_none_iff_not_mem_keys _ _).mpr hkfh]
      rw [(lookup_none_iff_not_mem_keys _ _).mpr
        (by rw [hkfw]; simp [keysOf])]
      rw [(lookup_none_iff_not_mem_keys _ _).mpr hdel]
    constructor
    · rw [hprune]
      show lookupStatus (TwoQ.pruneCold (evictHot (evictWarm s2).1).1) k = none
      rw [hWeq, hHeq, hPCeq] at *
      exact hfin
    · rw [hprune]
      unfold TwoQ.Get
      have hfin2 :
          lookupStatus (TwoQ.pruneCold (evictHot (evictWarm s2).1).1) k =
            none := by
        rw [hWeq, hHeq, hPCeq]
        exact hfin
      rw [hfin2]

/-- C10 witness: the amended theorem on a fresh 1000-byte cache and
an item of 1500 bytes, over both the total and the cold capacity. -/
theorem c10_oversized_insert_amended_witness :
    "z" ∈ (TwoQ.PutAndEvict tq1000 "z" 1500).2.1 ∧
    (tq1000.coldCap < 1500 →
      lookupStatus (TwoQ.PutAndEvict tq1000 "z" 1500).1 "z" = none ∧
      (TwoQ.Get (TwoQ.PutAndEvict tq1000 "z" 1500).1 "z").1 = -1) :=
  c10_oversized_insert_amended tq1000 "z" 1500 (by decide) (by decide)
    (by decide)

/-- An owner of a request identifier only owns identifiers already
allocated. -/
theorem owns_lt (s : Sys) (hs : SFInv s) (t r : Nat)
    (h : owns (s.tstate t) r) : r < s.next := by
  obtain ⟨i1, i2, i3, i4, i5, i6⟩ := hs
  rcases h with ⟨k, hk⟩ | ⟨k, res, hk⟩
  · exact (i1 t k r hk).2.2
  · exact i6 r res (i3 t k r res hk).1

/-- The invariant holds initially. -/
theorem sfInv_init (keyOf : Nat → String) : SFInv (initSys keyOf) := by
  refine ⟨?_, ?_, ?_, ?_, ?_, ?_⟩ <;> intros <;>
    simp_all [initSys, owns]

/-- The invariant is preserved by every step. -/
theorem sfInv_step (s s' : Sys) (hs : SFInv s) (hstep : Step s s') :
    SFInv s' := by
  have hOwnLt := owns_lt s hs
  obtain ⟨i1, i2, i3, i4, i5, i6⟩ := hs
  cases hstep with
  | beginLeader t k hstart hnone =>
    refine ⟨?_, ?_, ?_, ?_, ?_, ?_⟩
    · intro t2 k2 r2 h
      by_cases ht : t2 = t
      · simp only [updT, ht, if_pos] at h
        simp only [TState.calling.injEq] at h
        obtain ⟨hk2, hr2⟩ := h
        subst hk2
        subst hr2
        refine ⟨by simp [updR], ?_, Nat.lt_succ_self _⟩
        cases hcn : s.completed s.next with
        | none => rfl
        | some res => exact absurd (i6 _ _ hcn) (lt_irrefl _)
      · simp only [updT, if_neg ht] at h
        obtain ⟨ha, hb, hc2⟩ := i1 t2 k2 r2 h
        refine ⟨?_, hb, Nat.lt_succ_of_lt hc2⟩
        by_cases hk : k2 = k
        · rw [hk] at ha
          rw [ha] at hnone
          simp at hnone
        · simpa [updR, hk] using ha
    · intro t1 t2 r0 h1 h2
      have hnew : ∀ t0, owns (updT s.tstate t (TState.calling k s.next) t0) r0 →
          t0 = t ∨ owns (s.tstate t0) r0 := by
        intro t0 h0
        by_cases ht : t0 = t
        · exact Or.inl ht
        · simp only [updT, if_neg ht] at h0
          exact Or.inr h0
      have hnewr : ∀ t0, t0 ≠ t →
          owns (updT s.tstate t (TState.calling k s.next) t0) r0 →
          owns (s.tstate t0) r0 := by
        intro t0 ht h0
        simpa only [updT, if_neg ht] using h0
      by_cases ht1 : t1 = t <;> by_cases ht2 : t2 = t
      · rw [ht1, ht2]
      · exfalso
        have h2o := hnewr t2 ht2 h2
        subst ht1
        simp only [updT, if_pos] at h1
        have hr0 : r0 = s.next := by
          rcases h1 with ⟨k1, hk1⟩ | ⟨k1, res1, hk1⟩
          · cases hk1
            rfl
          · cases hk1
        exact absurd (hOwnLt t2 r0 h2o) (by rw [hr0]; exact lt_irrefl _)
      · exfalso
        have h1o := hnewr t1 ht1 h1
        subst ht2
        simp only [updT, if_pos] at h2
        have hr0 : r0 = s.next := by
          rcases h2 with ⟨k1, hk1⟩ | ⟨k1, res1, hk1⟩
          · cases hk1
            rfl
          · cases hk1
        exact absurd (hOwnLt t1 r0 h1o) (by rw [hr0]; exact lt_irrefl _)
      · exact i2 t1 t2 r0 (hnewr t1 ht1 h1) (hnewr t2 ht2 h2)
    · intro t2 k2 r2 res2 h
      by_cases ht : t2 = t
      · simp only [updT, ht, if_pos] at h
        cases h
      · simp only [updT, if_neg ht] at h
        obtain ⟨ha, hb⟩ := i3 t2 k2 r2 res2 h
        refine ⟨ha, ?_⟩
        by_cases hk : k2 = k
        · rw [hk] at hb
          rw [hb] at hnone
          simp at hnone
        · simpa [updR, hk] using hb
    · intro t2 r2 res2 h
      by_cases ht : t2 = t
      · simp only [updT, ht, if_pos] at h
        cases h
      · simp only [updT, if_neg ht] at h
        exact i4 t2 r2 res2 h
    · intro t2 r2 res2 h
      by_cases ht : t2 = t
      · simp only [updT, ht, if_pos] at h
        cases h
      · simp only [updT, if_neg ht] at h
        exact i5 t2 r2 res2 h
    · intro r2 res2 h
      exact Nat.lt_succ_of_lt (i6 r2 res2 h)
  | beginFollower t k r hstart hsome =>
    refine ⟨?_, ?_, ?_, ?_, ?_, ?_⟩
    · intro t2 k2 r2 h
      by_cases ht : t2 = t
      · simp only [updT, ht, if_pos] at h
        cases h
      · simp only [updT, if_neg ht] at h
        exact i1 t2 k2 r2 h
    · intro t1 t2 r0 h1 h2
      have hold : ∀ t0, owns (updT s.tstate t (TState.waiting k r) t0) r0 →
          owns (s.tstate t0) r0 := by
        intro t0 h0
        by_cases ht : t0 = t
        · exfalso
          simp only [updT, ht, if_pos] at h0
          rcases h0 with ⟨k1, hk1⟩ | ⟨k1, res1, hk1⟩ <;> cases hk1
        · simpa only [updT, if_neg ht] using h0
      exact i2 t1 t2 r0 (hold t1 h1) (hold t2 h2)
    · intro t2 k2 r2 res2 h
      by_cases ht : t2 = t
      · simp only [updT, ht, if_pos] at h
        cases h
      · simp only [updT, if_neg ht] at h
        exact i3 t2 k2 r2 res2 h
    · intro t2 r2 res2 h
      by_cases ht : t2 = t
      · simp only [updT, ht, if_pos] at h
        cases h
      · simp only [updT, if_neg ht] at h
        exact i4 t2 r2 res2 h
    · intro t2 r2 res2 h
      by_cases ht : t2 = t
      · simp only [updT, ht, if_pos] at h
        cases h
      · simp only [updT, if_neg ht] at h
        exact i5 t2 r2 res2 h
    · exact i6
  | finishCall t k r res hcall =>
    obtain ⟨hreq, hcomp, hlt⟩ := i1 t k r hcall
    refine ⟨?_, ?_, ?_, ?_, ?_, ?_⟩
    · intro t2 k2 r2 h
      by_cases ht : t2 = t
      · simp only [updT, ht, if_pos] at h
        cases h
      · simp only [updT, if_neg ht] at h
        obtain ⟨ha, hb, hc2⟩ := i1 t2 k2 r2 h
        refine ⟨ha, ?_, hc2⟩
        by_cases hr : r2 = r
        · exfalso
          have := i2 t2 t r2 (Or.inl ⟨k2, h⟩)
            (Or.inl ⟨k, by rw [hr]; exact hcall⟩)
          exact ht this
        · simpa [updC, hr] using hb
    · intro t1 t2 r0 h1 h2
      have hall : ∀ t0,
          owns (updT s.tstate t (TState.leaderDone k r res) t0) r0 →
          owns (s.tstate t0) r0 := by
        intro t0 h0
        by_cases ht : t0 = t
        · subst ht
          simp only [updT, if_pos] at h0
          have hr0 : r0 = r := by
            rcases h0 with ⟨k1, hk1⟩ | ⟨k1, res1, hk1⟩
            · cases hk1
            · cases hk1
              rfl
          rw [hr0]
          exact Or.inl ⟨k, hcall⟩
        · simpa only [updT, if_neg ht] using h0
      exact i2 t1 t2 r0 (hall t1 h1) (hall t2 h2)
    · intro t2 k2 r2 res2 h
      by_cases ht : t2 = t
      · simp only [updT, ht, if_pos] at h
        simp only [TState.leaderDone.injEq] at h
        obtain ⟨hk2, hr2, hres2⟩ := h
        subst hk2
        subst hr2
        subst hres2
        exact ⟨by simp [updC], hreq⟩
      · simp only [updT, if_neg ht] at h
        obtain ⟨ha, hb⟩ := i3 t2 k2 r2 res2 h
        refine ⟨?_, hb⟩
        by_cases hr : r2 = r
        · exfalso
          rw [hr] at ha
          rw [ha] at hcomp
          simp at hcomp
        · simpa [updC, hr] using ha
    · intro t2 r2 res2 h
      by_cases ht : t2 = t
      · simp only [updT, ht, if_pos] at h
        cases h
      · simp only [updT, if_neg ht] at h
        have ha := i4 t2 r2 res2 h
        by_cases hr : r2 = r
        · exfalso
          rw [hr] at ha
          rw [ha] at hcomp
          simp at hcomp
        · simpa [updC, hr] using ha
    · intro t2 r2 res2 h
      by_cases ht : t2 = t
      · simp only [updT, ht, if_pos] at h
        cases h
      · simp only [updT, if_neg ht] at h
        have ha := i5 t2 r2 res2 h
        by_cases hr : r2 = r
        · exfalso
          rw [hr] at ha
          rw [ha] at hcomp
          simp at hcomp
        · simpa [updC, hr] using ha
    · intro r2 res2 h
      by_cases hr : r2 = r
      · rw [hr]
        exact hlt
      · exact i6 r2 res2 (by simpa [updC, hr] using h)
  | leaderExit t k r res hld =>
    obtain ⟨hcomp, hreq⟩ := i3 t k r res hld
    refine ⟨?_, ?_, ?_, ?_, ?_, ?_⟩
    · intro t2 k2 r2 h
      by_cases ht : t2 = t
      · simp only [updT, ht, if_pos] at h
        cases h
      · simp only [updT, if_neg ht] at h
        obtain ⟨ha, hb, hc2⟩ := i1 t2 k2 r2 h
        refine ⟨?_, hb, hc2⟩
        by_cases hk : k2 = k
        · exfalso
          rw [hk] at ha
          rw [ha] at hreq
          simp at hreq
          rw [← hreq] at hcomp
          rw [hb] at hcomp
          simp at hcomp
        · simpa [updR, hk] using ha
    · intro t1 t2 r0 h1 h2
      have hall : ∀ t0,
          owns (updT s.tstate t (TState.doneLeader r res) t0) r0 →
          t0 ≠ t ∧ owns (s.tstate t0) r0 := by
        intro t0 h0
        by_cases ht : t0 = t
        · exfalso
          subst ht
          simp only [updT, if_pos] at h0
          rcases h0 with ⟨k1, hk1⟩ | ⟨k1, res1, hk1⟩ <;> cases hk1
        · exact ⟨ht, by simpa only [updT, if_neg ht] using h0⟩
      exact i2 t1 t2 r0 (hall t1 h1).2 (hall t2 h2).2
    · intro t2 k2 r2 res2 h
      by_cases ht : t2 = t
      · simp only [updT, ht, if_pos] at h
        cases h
      · simp only [updT, if_neg ht] at h
        obtain ⟨ha, hb⟩ := i3 t2 k2 r2 res2 h
        refine ⟨ha, ?_⟩
        by_cases hk : k2 = k
        · exfalso
          rw [hk] at hb
          rw [hb] at hreq
          simp at hreq
          have := i2 t2 t r (Or.inr ⟨k2, res2, by rw [← hreq]; exact h⟩)
            (Or.inr ⟨k, res, hld⟩)
          exact ht this
        · simpa [updR, hk] using hb
    · intro t2 r2 res2 h
      by_cases ht : t2 = t
      · simp only [updT, ht, if_pos] at h
        simp only [TState.doneLeader.injEq] at h
        obtain ⟨hr2, hres2⟩ := h
        subst hr2
        subst hres2
        exact hcomp
      · simp only [updT, if_neg ht] at h
        exact i4 t2 r2 res2 h
    · intro t2 r2 res2 h
      by_cases ht : t2 = t
      · simp only [updT, ht, if_pos] at h
        cases h
      · simp only [updT, if_neg ht] at h
        exact i5 t2 r2 res2 h
    · exact i6
  | followerWake t k r res hw hcomp =>
    refine ⟨?_, ?_, ?_, ?_, ?_, ?_⟩
    · intro t2 k2 r2 h
      by_cases ht : t2 = t
      · simp only [updT, ht, if_pos] at h
        cases h
      · simp only [updT, if_neg ht] at h
        exact i1 t2 k2 r2 h
    · intro t1 t2 r0 h1 h2
      have hall : ∀ t0,
          owns (updT s.tstate t (TState.doneFollower r res) t0) r0 →
          owns (s.tstate t0) r0 := by
        intro t0 h0
        by_cases ht : t0 = t
        · exfalso
          subst ht
          simp only [updT, if_pos] at h0
          rcases h0 with ⟨k1, hk1⟩ | ⟨k1, res1, hk1⟩ <;> cases hk1
        · simpa only [updT, if_neg ht] using h0
      exact i2 t1 t2 r0 (hall t1 h1) (hall t2 h2)
    · intro t2 k2 r2 res2 h
      by_cases ht : t2 = t
      · simp only [updT, ht, if_pos] at h
        cases h
      · simp only [updT, if_neg ht] at h
        exact i3 t2 k2 r2 res2 h
    · intro t2 r2 res2 h
      by_cases ht : t2 = t
      · simp only [updT, ht, if_pos] at h
        cases h
      · simp only [updT, if_neg ht] at h
        exact i4 t2 r2 res2 h
    · intro t2 r2 res2 h
      by_cases ht : t2 = t
      · simp only [updT, ht, if_pos] at h
        simp only [TState.doneFollower.injEq] at h
        obtain ⟨hr2, hres2⟩ := h
        subst hr2
        subst hres2
        exact hcomp
      · simp only [updT, if_neg ht] at h
        exact i5 t2 r2 res2 h
    · exact i6

/-- The invariant holds in every reachable system. -/
theorem sfInv_reachable (keyOf : Nat → String) (s : Sys)
    (h : Reachable keyOf s) : SFInv s := by
  induction h with
  | refl => exact sfInv_init keyOf
  | tail _ hstep ih => exact sfInv_step _ _ ih hstep

/-- C9.  Single flight: in every reachable system, at most one
thread is inside the origin store call for any key (concurrent
callers of the same key coalesce onto one leader), and every
follower that completes observes exactly the result the leader of
its request computed; any two followers of the same request observe
the same result. -/
theorem c9_single_flight (keyOf : Nat → String) (s : Sys)
    (h : Reachable keyOf s) :
    (∀ k t1 t2 r1 r2, s.tstate t1 = TState.calling k r1 →
      s.tstate t2 = TState.calling k r2 → t1 = t2) ∧
    (∀ t t2 r res res2, s.tstate t = TState.doneFollower r res →
      s.tstate t2 = TState.doneLeader r res2 → res = res2) ∧
    (∀ t t2 r res res2, s.tstate t = TState.doneFollower r res →
      s.tstate t2 = TState.doneFollower r res2 → res = res2) := by
  obtain ⟨i1, i2, i3, i4, i5, i6⟩ := sfInv_reachable keyOf s h
  refine ⟨?_, ?_, ?_⟩
  · intro k t1 t2 r1 r2 h1 h2
    have ha := (i1 t1 k r1 h1).1
    have hb := (i1 t2 k r2 h2).1
    rw [ha] at hb
    simp at hb
    refine i2 t1 t2 r1 (Or.inl ⟨k, h1⟩) (Or.inl ⟨k, ?_⟩)
    rw [← hb] at h2
    exact h2
  · intro t t2 r res res2 h1 h2
    have ha := i5 t r res h1
    have hb := i4 t2 r res2 h2
    rw [ha] at hb
    simp at hb
    exact hb
  · intro t t2 r res res2 h1 h2
    have ha := i5 t r res h1
    have hb := i5 t2 r res2 h2
    rw [ha] at hb
    simp at hb
    exact hb

/-- The witness run is reachable. -/
theorem sfA5_reachable : Reachable kf sfA5 := by
  have s1 : Step (initSys kf) sfA1 := Step.beginLeader (initSys kf) 0 "k" rfl rfl
  have s2 : Step sfA1 sfA2 := Step.beginFollower sfA1 1 "k" 0 rfl rfl
  have s3 : Step sfA2 sfA3 := Step.finishCall sfA2 0 "k" 0 sfRes rfl
  have s4 : Step sfA3 sfA4 := Step.followerWake sfA3 1 "k" 0 sfRes rfl rfl
  have s5 : Step sfA4 sfA5 := Step.leaderExit sfA4 0 "k" 0 sfRes rfl
  exact ((((Relation.ReflTransGen.single s1).tail s2).tail s3).tail s4).tail s5

/-- C9 witness: the single flight theorem applied to the concrete
five step run, where the follower thread 1 observed exactly the
result the leader thread 0 obtained. -/
theorem c9_single_flight_witness :
    sfA5.tstate 1 = TState.doneFollower 0 sfRes ∧
    sfA5.tstate 0 = TState.doneLeader 0 sfRes ∧
    sfRes = sfRes :=
  ⟨rfl, rfl,
   (c9_single_flight kf sfA5 sfA5_reachable).2.1 1 0 0 sfRes sfRes rfl rfl⟩
